import Mathlib

/-!
Verification of the miniflow graph engine (src/miniflow.py).

The Python program is an object graph: each `Node` holds `inbound_nodes`,
`outbound_nodes`, `value` and `gradients`, and node construction appends the
new node to each inbound node's `outbound_nodes` list.  We embed the object
graph as an arena: nodes are integer indices in construction order, and a
graph is the list of per-node records.  Node identity (Python object
identity, used as dictionary key) becomes index equality.  The numeric
payloads (numpy arrays) are modelled per operation: matrices over an
abstract commutative ring / field as `Fin m → Fin n → α`, and numpy's `exp`
(external library code) as an abstract function parameter.
-/

namespace Miniflow

/-- The closed set of node kinds appearing in the source. `base` stands for
the abstract `Node` class itself. -/
inductive NodeOp where
  | base
  | input
  | add
  | mul
  | linear
  | sigmoid
  | mse
deriving DecidableEq, Repr

/-- One node of the arena: its kind, the indices of its inbound nodes
(`inbound_nodes`, fixed at construction) and of its outbound nodes
(`outbound_nodes`, grown by later constructions). -/
structure NodeData where
  op : NodeOp
  inb : List Nat
  outb : List Nat
deriving DecidableEq, Repr

/-- Default node record, used for out-of-range reads. -/
def emptyNode : NodeData := ⟨NodeOp.base, [], []⟩

/-- A graph is the construction-ordered list of node records. -/
abbrev Graph : Type := List NodeData

/-- Kind of node `i` (the default `base` for indices that do not exist). -/
def nodeOp (g : Graph) (i : Nat) : NodeOp := (List.getD g i emptyNode).op

/-- `inbound_nodes` of node `i`, as indices. -/
def inbound (g : Graph) (i : Nat) : List Nat := (List.getD g i emptyNode).inb

/-- `outbound_nodes` of node `i`, as indices. -/
def outbound (g : Graph) (i : Nat) : List Nat := (List.getD g i emptyNode).outb

/-- Append `idx` to the `outbound_nodes` of node `p` (one step of the loop in
`Node.__init__`: `n.outbound_nodes.append(self)`). -/
def addOut : Graph → Nat → Nat → Graph
  | [], _, _ => []
  | d :: rest, 0, idx => { d with outb := d.outb ++ [idx] } :: rest
  | d :: rest, Nat.succ p, idx => d :: addOut rest p idx

/-- `Node.__init__(inbound_nodes)`: the new node gets the next index, records
its inbound list, starts with empty `outbound_nodes`, and appends itself to
each inbound node's `outbound_nodes` (once per occurrence, as the Python
loop does). -/
def mkNode (g : Graph) (op : NodeOp) (inb : List Nat) : Graph :=
  (inb.foldl (fun acc p => addOut acc p g.length) g) ++ [⟨op, inb, []⟩]

/-- Build a graph from a list of constructor calls given as
(kind, inbound indices) pairs, in construction order. -/
def buildGraph (specs : List (NodeOp × List Nat)) : Graph :=
  specs.foldl (fun g s => mkNode g s.1 s.2) ([] : Graph)

/-- Well-formedness of a constructor-call list starting at index `k`: every
inbound reference points to an already-constructed node (this is forced by
Python, where inbound entries are existing objects — it also makes every
graph built this way acyclic), and `Input()` nodes take no inbound nodes
(the `Input.__init__` signature). -/
def WFfrom : Nat → List (NodeOp × List Nat) → Prop
  | _, [] => True
  | k, s :: rest => (∀ p ∈ s.2, p < k) ∧ (s.1 = NodeOp.input → s.2 = []) ∧ WFfrom (k + 1) rest

/-- Well-formed constructor-call list. -/
def WFspecs (specs : List (NodeOp × List Nat)) : Prop := WFfrom 0 specs

def WFfrom.dec : (k : Nat) → (l : List (NodeOp × List Nat)) → Decidable (WFfrom k l)
  | _, [] => isTrue trivial
  | k, s :: rest => @instDecidableAnd _ _ _ (@instDecidableAnd _ _ _ (WFfrom.dec (k + 1) rest))

instance (k : Nat) (l : List (NodeOp × List Nat)) : Decidable (WFfrom k l) := WFfrom.dec k l

instance (specs : List (NodeOp × List Nat)) : Decidable (WFspecs specs) := WFfrom.dec 0 specs

/-- The extra hypothesis of the amended C1: no node lists the same inbound
node more than once. -/
def NodupInb (specs : List (NodeOp × List Nat)) : Prop := ∀ s ∈ specs, s.2.Nodup

instance (specs : List (NodeOp × List Nat)) : Decidable (NodupInb specs) :=
  List.decidableBAll _ specs

/-- Structural invariant of graphs reachable by construction: edges point
from lower to higher index, outbound is count-dual to inbound, and `Input`
nodes are leaves. -/
structure GW (g : Graph) : Prop where
  edges_lt : ∀ j p, p ∈ inbound g j → p < j
  dual : ∀ i j, List.count j (outbound g i) = List.count i (inbound g j)
  input_leaf : ∀ j, nodeOp g j = NodeOp.input → inbound g j = []

theorem inbound_of_ge (g : Graph) (j : Nat) (h : g.length ≤ j) : inbound g j = [] := by
  simp [inbound, List.getD, List.getElem?_eq_none h, emptyNode]

theorem outbound_of_ge (g : Graph) (j : Nat) (h : g.length ≤ j) : outbound g j = [] := by
  simp [outbound, List.getD, List.getElem?_eq_none h, emptyNode]

theorem nodeOp_of_ge (g : Graph) (j : Nat) (h : g.length ≤ j) : nodeOp g j = NodeOp.base := by
  simp [nodeOp, List.getD, List.getElem?_eq_none h, emptyNode]

theorem lt_length_of_inbound_ne (g : Graph) (j : Nat) (h : inbound g j ≠ []) :
    j < g.length := by
  by_contra hc
  exact h (inbound_of_ge g j (Nat.le_of_not_lt hc))

theorem addOut_length (g : Graph) (p idx : Nat) : (addOut g p idx).length = g.length := by
  induction g generalizing p with
  | nil => simp [addOut]
  | cons d rest ih =>
    cases p with
    | zero => simp [addOut]
    | succ q => simp [addOut, ih]

theorem addOut_inbound (g : Graph) (p idx j : Nat) :
    inbound (addOut g p idx) j = inbound g j := by
  induction g generalizing p j with
  | nil => simp [addOut]
  | cons d rest ih =>
    cases p with
    | zero =>
      cases j with
      | zero => simp [addOut, inbound, List.getD]
      | succ i => simp [addOut, inbound, List.getD]
    | succ q =>
      cases j with
      | zero => simp [addOut, inbound, List.getD]
      | succ i =>
        have := ih q i
        simpa [addOut, inbound, List.getD] using this

theorem addOut_nodeOp (g : Graph) (p idx j : Nat) :
    nodeOp (addOut g p idx) j = nodeOp g j := by
  induction g generalizing p j with
  | nil => simp [addOut]
  | cons d rest ih =>
    cases p with
    | zero =>
      cases j with
      | zero => simp [addOut, nodeOp, List.getD]
      | succ i => simp [addOut, nodeOp, List.getD]
    | succ q =>
      cases j with
      | zero => simp [addOut, nodeOp, List.getD]
      | succ i =>
        have := ih q i
        simpa [addOut, nodeOp, List.getD] using this

theorem addOut_outbound_self (g : Graph) (p idx : Nat) (hp : p < g.length) :
    outbound (addOut g p idx) p = outbound g p ++ [idx] := by
  induction g generalizing p with
  | nil => simp at hp
  | cons d rest ih =>
    cases p with
    | zero => simp [addOut, outbound, List.getD]
    | succ q =>
      have hq : q < rest.length := by simpa using hp
      have := ih q hq
      simpa [addOut, outbound, List.getD] using this

theorem addOut_outbound_other (g : Graph) (p idx j : Nat) (hne : j ≠ p) :
    outbound (addOut g p idx) j = outbound g j := by
  induction g generalizing p j with
  | nil => simp [addOut]
  | cons d rest ih =>
    cases p with
    | zero =>
      cases j with
      | zero => exact absurd rfl hne
      | succ i => simp [addOut, outbound, List.getD]
    | succ q =>
      cases j with
      | zero => simp [addOut, outbound, List.getD]
      | succ i =>
        have := ih q i (fun h => hne (by simpa using h))
        simpa [addOut, outbound, List.getD] using this

theorem addOut_of_ge (g : Graph) (p idx : Nat) (hp : g.length ≤ p) : addOut g p idx = g := by
  induction g generalizing p with
  | nil => simp [addOut]
  | cons d rest ih =>
    cases p with
    | zero => simp at hp
    | succ q =>
      have hq : rest.length ≤ q := by simpa using hp
      simp [addOut, ih q hq]

theorem foldl_addOut_length (inb : List Nat) (idx : Nat) :
    ∀ g : Graph, (inb.foldl (fun acc p => addOut acc p idx) g).length = g.length := by
  induction inb with
  | nil => intro g; simp
  | cons p rest ih =>
    intro g
    simp only [List.foldl_cons]
    rw [ih, addOut_length]

theorem foldl_addOut_inbound (inb : List Nat) (idx : Nat) :
    ∀ (g : Graph) (j : Nat),
      inbound (inb.foldl (fun acc p => addOut acc p idx) g) j = inbound g j := by
  induction inb with
  | nil => intro g j; simp
  | cons p rest ih =>
    intro g j
    simp only [List.foldl_cons]
    rw [ih, addOut_inbound]

theorem foldl_addOut_nodeOp (inb : List Nat) (idx : Nat) :
    ∀ (g : Graph) (j : Nat),
      nodeOp (inb.foldl (fun acc p => addOut acc p idx) g) j = nodeOp g j := by
  induction inb with
  | nil => intro g j; simp
  | cons p rest ih =>
    intro g j
    simp only [List.foldl_cons]
    rw [ih, addOut_nodeOp]

theorem foldl_addOut_outbound (inb : List Nat) (idx : Nat) :
    ∀ (g : Graph) (j : Nat), (∀ p ∈ inb, p < g.length) →
      outbound (inb.foldl (fun acc p => addOut acc p idx) g) j =
        outbound g j ++ List.replicate (inb.count j) idx := by
  induction inb with
  | nil => intro g j _; simp
  | cons p rest ih =>
    intro g j hin
    have hp : p < g.length := hin p (by simp)
    have hrest : ∀ q ∈ rest, q < (addOut g p idx).length := by
      intro q hq
      rw [addOut_length]
      exact hin q (by simp [hq])
    simp only [List.foldl_cons]
    rw [ih (addOut g p idx) j hrest]
    by_cases hj : j = p
    · subst hj
      rw [addOut_outbound_self g j idx hp]
      simp [List.count_cons, List.replicate_succ, List.append_assoc]
    · rw [addOut_outbound_other g p idx j hj]
      have : (p :: rest).count j = rest.count j := by
        simp [List.count_cons, Ne.symm hj]
      rw [this]

theorem mkNode_length (g : Graph) (op : NodeOp) (inb : List Nat) :
    (mkNode g op inb).length = g.length + 1 := by
  simp [mkNode, foldl_addOut_length]

theorem getD_append_single (l : List NodeData) (x : NodeData) (j : Nat) :
    List.getD (l ++ [x]) j emptyNode =
      if j < l.length then List.getD l j emptyNode
      else if j = l.length then x else emptyNode := by
  simp only [List.getD]
  rcases Nat.lt_trichotomy j l.length with h | h | h
  · rw [if_pos h, List.get?_append h]
  · subst h
    rw [if_neg (lt_irrefl _), if_pos rfl, List.get?_append_right (le_refl _)]
    simp
  · have h1 : ¬ j < l.length := by omega
    have h2 : j ≠ l.length := by omega
    rw [if_neg h1, if_neg h2, List.get?_append_right (by omega)]
    rw [List.get?_eq_none.mpr (by simp; omega)]
    rfl

theorem mkNode_inbound (g : Graph) (op : NodeOp) (inb : List Nat) (j : Nat) :
    inbound (mkNode g op inb) j = if j = g.length then inb else inbound g j := by
  have hlen : (inb.foldl (fun acc p => addOut acc p g.length) g).length = g.length :=
    foldl_addOut_length _ _ _
  have hinb := foldl_addOut_inbound inb g.length g j
  unfold mkNode
  unfold inbound at hinb ⊢
  rw [getD_append_single, hlen]
  rcases Nat.lt_trichotomy j g.length with h | h | h
  · rw [if_pos h, if_neg (show ¬ j = g.length by omega)]
    exact hinb
  · rw [if_neg (show ¬ j < g.length by omega), if_pos h, if_pos h]
  · rw [if_neg (show ¬ j < g.length by omega), if_neg (show ¬ j = g.length by omega)]
    rw [List.getD_eq_default _ _ (Nat.le_of_lt h), if_neg (show ¬ j = g.length by omega)]

theorem mkNode_nodeOp (g : Graph) (op : NodeOp) (inb : List Nat) (j : Nat) :
    nodeOp (mkNode g op inb) j = if j = g.length then op else nodeOp g j := by
  have hlen : (inb.foldl (fun acc p => addOut acc p g.length) g).length = g.length :=
    foldl_addOut_length _ _ _
  have hop := foldl_addOut_nodeOp inb g.length g j
  unfold mkNode
  unfold nodeOp at hop ⊢
  rw [getD_append_single, hlen]
  rcases Nat.lt_trichotomy j g.length with h | h | h
  · rw [if_pos h, if_neg (show ¬ j = g.length by omega)]
    exact hop
  · rw [if_neg (show ¬ j < g.length by omega), if_pos h, if_pos h]
  · rw [if_neg (show ¬ j < g.length by omega), if_neg (show ¬ j = g.length by omega)]
    rw [List.getD_eq_default _ _ (Nat.le_of_lt h), if_neg (show ¬ j = g.length by omega)]

theorem mkNode_outbound (g : Graph) (op : NodeOp) (inb : List Nat) (j : Nat)
    (hin : ∀ p ∈ inb, p < g.length) :
    outbound (mkNode g op inb) j =
      if j = g.length then []
      else outbound g j ++ List.replicate (inb.count j) g.length := by
  have hlen : (inb.foldl (fun acc p => addOut acc p g.length) g).length = g.length :=
    foldl_addOut_length _ _ _
  have hout := foldl_addOut_outbound inb g.length g j hin
  unfold mkNode
  unfold outbound at hout ⊢
  rw [getD_append_single, hlen]
  rcases Nat.lt_trichotomy j g.length with h | h | h
  · rw [if_pos h, if_neg (show ¬ j = g.length by omega)]
    exact hout
  · rw [if_neg (show ¬ j < g.length by omega), if_pos h, if_pos h]
  · rw [if_neg (show ¬ j < g.length by omega), if_neg (show ¬ j = g.length by omega)]
    rw [List.getD_eq_default _ _ (Nat.le_of_lt h), if_neg (show ¬ j = g.length by omega)]
    have hcnt : inb.count j = 0 := by
      rw [List.count_eq_zero]
      intro hmem
      exact absurd (hin j hmem) (by omega)
    simp [hcnt]

theorem GW_mkNode (g : Graph) (op : NodeOp) (inb : List Nat) (hg : GW g)
    (hin : ∀ p ∈ inb, p < g.length) (hleaf : op = NodeOp.input → inb = []) :
    GW (mkNode g op inb) := by
  constructor
  · intro j p hp
    rw [mkNode_inbound] at hp
    by_cases hj : j = g.length
    · rw [if_pos hj] at hp; rw [hj]; exact hin p hp
    · rw [if_neg hj] at hp; exact hg.edges_lt j p hp
  · intro i j
    rw [mkNode_inbound]
    by_cases hi : i = g.length
    · subst hi
      rw [mkNode_outbound _ _ _ _ hin, if_pos rfl]
      by_cases hj : j = g.length
      · rw [if_pos hj]
        have : inb.count g.length = 0 := by
          rw [List.count_eq_zero]
          intro hm
          exact absurd (hin _ hm) (lt_irrefl _)
        simp [this]
      · rw [if_neg hj]
        have : g.length ∉ inbound g j := by
          intro hm
          rcases Nat.lt_or_ge j g.length with hlt | hge
          · exact absurd (hg.edges_lt j _ hm) (by omega)
          · rw [inbound_of_ge g j hge] at hm; simp at hm
        simp [List.count_eq_zero.mpr this]
    · rw [mkNode_outbound _ _ _ _ hin, if_neg hi, List.count_append, List.count_replicate]
      by_cases hj : j = g.length
      · rw [if_pos hj]
        have hz : List.count j (outbound g i) = 0 := by
          rw [hg.dual i j, List.count_eq_zero, hj]
          rw [inbound_of_ge g g.length (le_refl _)]
          simp
        rw [hz, hj]
        simp
      · rw [if_neg hj]
        rw [if_neg (show ¬ ((g.length == j) = true) by simp [beq_iff_eq]; omega)]
        rw [Nat.add_zero, hg.dual i j]
  · intro j hop
    rw [mkNode_nodeOp] at hop
    rw [mkNode_inbound]
    by_cases hj : j = g.length
    · rw [if_pos hj]; rw [if_pos hj] at hop; exact hleaf hop
    · rw [if_neg hj]; rw [if_neg hj] at hop; exact hg.input_leaf j hop

theorem GW_nil : GW ([] : Graph) := by
  constructor
  · intro j p hp
    rw [inbound_of_ge _ _ (by simp)] at hp
    simp at hp
  · intro i j
    rw [inbound_of_ge _ _ (by simp), outbound_of_ge _ _ (by simp)]
    simp
  · intro j hop
    rw [nodeOp_of_ge _ _ (by simp)] at hop
    cases hop

theorem GW_foldl (specs : List (NodeOp × List Nat)) :
    ∀ g : Graph, GW g → WFfrom g.length specs →
      GW (specs.foldl (fun g s => mkNode g s.1 s.2) g) := by
  induction specs with
  | nil => intro g hg _; simpa using hg
  | cons s rest ih =>
    intro g hg hwf
    obtain ⟨h1, h2, h3⟩ := hwf
    simp only [List.foldl_cons]
    apply ih
    · exact GW_mkNode g s.1 s.2 hg h1 h2
    · rw [mkNode_length]; exact h3

theorem GW_buildGraph (specs : List (NodeOp × List Nat)) (hwf : WFspecs specs) :
    GW (buildGraph specs) :=
  GW_foldl specs [] GW_nil hwf

theorem buildGraph_inb_nodup (specs : List (NodeOp × List Nat)) (hnd : NodupInb specs) :
    ∀ j, (inbound (buildGraph specs) j).Nodup := by
  unfold buildGraph
  have main : ∀ (l : List (NodeOp × List Nat)) (g : Graph),
      (∀ j, (inbound g j).Nodup) → (∀ s ∈ l, s.2.Nodup) →
      ∀ j, (inbound (l.foldl (fun g s => mkNode g s.1 s.2) g) j).Nodup := by
    intro l
    induction l with
    | nil => intro g hg _; simpa using hg
    | cons s rest ih =>
      intro g hg hl j
      simp only [List.foldl_cons]
      apply ih
      · intro i
        rw [mkNode_inbound]
        by_cases hi : i = g.length
        · rw [if_pos hi]; exact hl s (by simp)
        · rw [if_neg hi]; exact hg i
      · intro t ht; exact hl t (by simp [ht])
  intro j
  apply main specs [] _ hnd
  intro i
  rw [inbound_of_ge _ _ (by simp)]
  exact List.nodup_nil

theorem mem_outbound_iff (g : Graph) (hg : GW g) (i j : Nat) :
    j ∈ outbound g i ↔ i ∈ inbound g j := by
  have h := hg.dual i j
  constructor
  · intro hm
    by_contra hc
    rw [← List.count_eq_zero, ← h, List.count_eq_zero] at hc
    exact hc hm
  · intro hm
    by_contra hc
    rw [← List.count_eq_zero, h, List.count_eq_zero] at hc
    exact hc hm

theorem mem_outbound_gt (g : Graph) (hg : GW g) {i m : Nat} (hm : m ∈ outbound g i) :
    i < m :=
  hg.edges_lt m i ((mem_outbound_iff g hg i m).mp hm)

theorem mem_outbound_lt_length (g : Graph) (hg : GW g) {i m : Nat}
    (hm : m ∈ outbound g i) : m < g.length :=
  lt_length_of_inbound_ne g m
    (List.ne_nil_of_mem ((mem_outbound_iff g hg i m).mp hm))

theorem outbound_nodup (g : Graph) (hg : GW g) (hnod : ∀ j, (inbound g j).Nodup)
    (i : Nat) : (outbound g i).Nodup := by
  rw [List.nodup_iff_count_le_one]
  intro a
  rw [hg.dual i a]
  exact List.nodup_iff_count_le_one.mp (hnod a) i

/-- Reachability from the `Input` leaves along outbound edges (equivalently:
`j` is a leaf, or some inbound node of `j` is reachable). -/
inductive Reach (g : Graph) : Nat → Prop where
  | root (j : Nat) : j < g.length → nodeOp g j = NodeOp.input → Reach g j
  | step (p j : Nat) : Reach g p → p ∈ inbound g j → Reach g j

theorem Reach.lt_length {g : Graph} {j : Nat} (h : Reach g j) : j < g.length := by
  induction h with
  | root j h1 _ => exact h1
  | step p j _ hin _ => exact lt_length_of_inbound_ne g j (List.ne_nil_of_mem hin)

/-- The keys of the feed dictionary: exactly the `Input` nodes, in index
order (the Python dict's iteration order is unspecified; any fixed order
works since Kahn's ready set is an unordered set anyway). -/
def inputsOf (g : Graph) : List Nat :=
  (List.range g.length).filter (fun i => nodeOp g i == NodeOp.input)

theorem mem_inputsOf (g : Graph) (i : Nat) :
    i ∈ inputsOf g ↔ i < g.length ∧ nodeOp g i = NodeOp.input := by
  simp [inputsOf, List.mem_filter, List.mem_range]

theorem inputsOf_nodup (g : Graph) : (inputsOf g).Nodup :=
  List.Nodup.filter _ (List.nodup_range _)

/-- Pointwise update of a map from node index to edge list. -/
def updf (f : Nat → List Nat) (a : Nat) (v : List Nat) : Nat → List Nat :=
  fun x => if x = a then v else f x

theorem updf_same (f : Nat → List Nat) (a : Nat) (v : List Nat) : updf f a v a = v := by
  simp [updf]

theorem updf_other (f : Nat → List Nat) (a : Nat) (v : List Nat) (x : Nat) (h : x ≠ a) :
    updf f a v x = f x := by
  simp [updf, h]

/-- Python `set.add`: insert if not already present. -/
def setInsert (l : List Nat) (x : Nat) : List Nat := if x ∈ l then l else l ++ [x]

theorem mem_setInsert (l : List Nat) (x y : Nat) :
    y ∈ setInsert l x ↔ y ∈ l ∨ y = x := by
  unfold setInsert
  by_cases h : x ∈ l
  · rw [if_pos h]
    constructor
    · exact Or.inl
    · rintro (hy | rfl)
      · exact hy
      · exact h
  · rw [if_neg h]
    simp

theorem setInsert_nodup (l : List Nat) (x : Nat) (h : l.Nodup) : (setInsert l x).Nodup := by
  unfold setInsert
  by_cases hx : x ∈ l
  · rw [if_pos hx]; exact h
  · rw [if_neg hx, ← List.concat_eq_append]
    exact List.Nodup.concat hx h

theorem setInsert_length_of_not_mem (l : List Nat) (x : Nat) (h : x ∉ l) :
    (setInsert l x).length = l.length + 1 := by
  simp [setInsert, h]

/-- Python `set.remove`: remove the element, raising `KeyError` (modelled as
`none`) when it is absent. -/
def removeElem (l : List Nat) (x : Nat) : Option (List Nat) :=
  if x ∈ l then some (l.erase x) else none

theorem removeElem_of_mem (l : List Nat) (x : Nat) (h : x ∈ l) :
    removeElem l x = some (l.erase x) := by simp [removeElem, h]

theorem removeElem_of_not_mem (l : List Nat) (x : Nat) (h : x ∉ l) :
    removeElem l x = none := by simp [removeElem, h]

/-!
Phase 1 of `topological_sort` (src/miniflow.py lines 160-169): a queue-driven
discovery pass.  Popping node `n` records, for every `m` in `n.outbound_nodes`,
the edge `n → m` in the `in`/`out` edge sets (`G[n]['out'].add(m)`,
`G[m]['in'].add(n)`) and appends `m` to the queue.  The Python
`if ... not in G` lines only insert empty set entries, which is inert in our
total-map representation where absent entries read as `[]`.  The queue has no
visited check, so a node is popped once per discovered inbound edge.  The
Python loop runs until the queue empties; we supply explicit fuel and prove
below that the fuel `bfsFuel` always suffices on constructor-built graphs.
-/

def processOut (n : Nat) : List Nat → (Nat → List Nat) → (Nat → List Nat) →
    (Nat → List Nat) × (Nat → List Nat)
  | [], gin, gout => (gin, gout)
  | m :: ms, gin, gout =>
      processOut n ms (updf gin m (setInsert (gin m) n)) (updf gout n (setInsert (gout n) m))

def bfsAux (g : Graph) : Nat → List Nat → (Nat → List Nat) → (Nat → List Nat) → List Nat →
    Option ((Nat → List Nat) × (Nat → List Nat) × List Nat)
  | _, [], gin, gout, proc => some (gin, gout, proc)
  | 0, _ :: _, _, _, _ => none
  | fuel + 1, n :: rest, gin, gout, proc =>
      bfsAux g fuel (rest ++ outbound g n) (processOut n (outbound g n) gin gout).1
        (processOut n (outbound g n) gin gout).2 (proc ++ [n])

/-- Total number of outbound edge slots, used to bound the queue growth. -/
def outSum (g : Graph) : Nat :=
  ((List.range g.length).map (fun i => (outbound g i).length)).sum

def bigK (g : Graph) : Nat := outSum g + 2

/-- Termination potential of the discovery queue. -/
def potB (g : Graph) (q : List Nat) : Nat :=
  (q.map (fun n => bigK g ^ (g.length - n))).sum

def bfsFuel (g : Graph) : Nat := potB g (inputsOf g) + 1

/-- Phase 1 of `topological_sort`, started from the feed keys. -/
def bfsPhase (g : Graph) : Option ((Nat → List Nat) × (Nat → List Nat) × List Nat) :=
  bfsAux g (bfsFuel g) (inputsOf g) (fun _ => []) (fun _ => []) []

theorem outbound_length_le_outSum (g : Graph) (i : Nat) (hi : i < g.length) :
    (outbound g i).length ≤ outSum g := by
  apply List.single_le_sum (by intro x _; exact Nat.zero_le x)
  exact List.mem_map.mpr ⟨i, List.mem_range.mpr hi, rfl⟩

theorem potB_append (g : Graph) (a b : List Nat) :
    potB g (a ++ b) = potB g a + potB g b := by
  simp [potB]

theorem potB_cons (g : Graph) (n : Nat) (q : List Nat) :
    potB g (n :: q) = bigK g ^ (g.length - n) + potB g q := by
  simp [potB]

theorem potB_out_lt (g : Graph) (hg : GW g) (n : Nat) (hn : n < g.length) :
    potB g (outbound g n) < bigK g ^ (g.length - n) := by
  have hbound : ∀ x ∈ (outbound g n).map (fun m => bigK g ^ (g.length - m)),
      x ≤ bigK g ^ (g.length - n - 1) := by
    intro x hx
    rcases List.mem_map.mp hx with ⟨m, hm, rfl⟩
    have h1 : n < m := mem_outbound_gt g hg hm
    apply Nat.pow_le_pow_right
    · unfold bigK; omega
    · omega
  have hsum := List.sum_le_card_nsmul _ _ hbound
  rw [List.length_map] at hsum
  unfold potB
  have hlen : (outbound g n).length ≤ outSum g := outbound_length_le_outSum g n hn
  have hK : outSum g + 1 < bigK g := by unfold bigK; omega
  calc ((outbound g n).map (fun m => bigK g ^ (g.length - m))).sum
      ≤ (outbound g n).length * bigK g ^ (g.length - n - 1) := by
        simpa [smul_eq_mul] using hsum
    _ ≤ (outSum g + 1) * bigK g ^ (g.length - n - 1) := by
        apply Nat.mul_le_mul_right
        omega
    _ < bigK g * bigK g ^ (g.length - n - 1) := by
        exact mul_lt_mul_of_pos_right hK (Nat.pos_pow_of_pos _ (by unfold bigK; omega))
    _ = bigK g ^ ((g.length - n - 1) + 1) := (pow_succ' (bigK g) (g.length - n - 1)).symm
    _ = bigK g ^ (g.length - n) := by
        congr 1
        omega

theorem processOut_fst_mem (n : Nat) (ms : List Nat) :
    ∀ (gin gout : Nat → List Nat) (m x : Nat),
      x ∈ (processOut n ms gin gout).1 m ↔ x ∈ gin m ∨ (x = n ∧ m ∈ ms) := by
  induction ms with
  | nil => intro gin gout m x; simp [processOut]
  | cons m0 ms ih =>
    intro gin gout m x
    simp only [processOut]
    rw [ih]
    by_cases hm : m = m0
    · subst hm
      rw [updf_same, mem_setInsert]
      simp only [List.mem_cons]
      tauto
    · rw [updf_other _ _ _ _ hm]
      simp only [List.mem_cons]
      constructor
      · rintro (h | ⟨rfl, hms⟩)
        · exact Or.inl h
        · exact Or.inr ⟨rfl, Or.inr hms⟩
      · rintro (h | ⟨rfl, (hh | hms)⟩)
        · exact Or.inl h
        · exact absurd hh hm
        · exact Or.inr ⟨rfl, hms⟩

theorem processOut_snd_mem (n : Nat) (ms : List Nat) :
    ∀ (gin gout : Nat → List Nat) (j x : Nat),
      x ∈ (processOut n ms gin gout).2 j ↔ x ∈ gout j ∨ (j = n ∧ x ∈ ms) := by
  induction ms with
  | nil => intro gin gout j x; simp [processOut]
  | cons m0 ms ih =>
    intro gin gout j x
    simp only [processOut]
    rw [ih]
    by_cases hj : j = n
    · subst hj
      rw [updf_same, mem_setInsert]
      simp only [List.mem_cons]
      tauto
    · rw [updf_other _ _ _ _ hj]
      simp only [List.mem_cons]
      constructor
      · rintro (h | ⟨rfl, hms⟩)
        · exact Or.inl h
        · exact absurd rfl hj
      · rintro (h | ⟨rfl, hms⟩)
        · exact Or.inl h
        · exact absurd rfl hj

theorem processOut_fst_nodup (n : Nat) (ms : List Nat) :
    ∀ (gin gout : Nat → List Nat), (∀ k, (gin k).Nodup) →
      ∀ k, ((processOut n ms gin gout).1 k).Nodup := by
  induction ms with
  | nil => intro gin gout h k; simpa [processOut] using h k
  | cons m0 ms ih =>
    intro gin gout h k
    simp only [processOut]
    apply ih
    intro k2
    by_cases hk : k2 = m0
    · rw [hk, updf_same]
      exact setInsert_nodup _ _ (h m0)
    · rw [updf_other _ _ _ _ hk]
      exact h k2

theorem processOut_snd_nodup (n : Nat) (ms : List Nat) :
    ∀ (gin gout : Nat → List Nat), (∀ k, (gout k).Nodup) →
      ∀ k, ((processOut n ms gin gout).2 k).Nodup := by
  induction ms with
  | nil => intro gin gout h k; simpa [processOut] using h k
  | cons m0 ms ih =>
    intro gin gout h k
    simp only [processOut]
    apply ih
    intro k2
    by_cases hk : k2 = n
    · rw [hk, updf_same]
      exact setInsert_nodup _ _ (h n)
    · rw [updf_other _ _ _ _ hk]
      exact h k2

/-- Loop invariant of the discovery pass: `proc` is the multiset of popped
nodes, `queue` the pending ones; the edge sets record exactly the edges out
of popped nodes. -/
structure BfsInv (g : Graph) (queue proc : List Nat)
    (gin gout : Nat → List Nat) : Prop where
  qreach : ∀ n ∈ queue, Reach g n
  preach : ∀ n ∈ proc, Reach g n
  rootscov : ∀ r, r < g.length → nodeOp g r = NodeOp.input → r ∈ proc ∨ r ∈ queue
  closure : ∀ p ∈ proc, ∀ m, p ∈ inbound g m → m ∈ proc ∨ m ∈ queue
  ginchar : ∀ m x, x ∈ gin m ↔ (x ∈ proc ∧ x ∈ inbound g m)
  goutchar : ∀ j x, x ∈ gout j ↔ (j ∈ proc ∧ j ∈ inbound g x)
  ginnd : ∀ m, (gin m).Nodup
  goutnd : ∀ j, (gout j).Nodup

theorem bfs_step (g : Graph) (hg : GW g) (n : Nat) (rest proc : List Nat)
    (gin gout : Nat → List Nat) (inv : BfsInv g (n :: rest) proc gin gout) :
    BfsInv g (rest ++ outbound g n) (proc ++ [n])
      (processOut n (outbound g n) gin gout).1
      (processOut n (outbound g n) gin gout).2 := by
  have hreachn : Reach g n := inv.qreach n (by simp)
  constructor
  · intro x hx
    rcases List.mem_append.mp hx with hx | hx
    · exact inv.qreach x (by simp [hx])
    · exact Reach.step n x hreachn ((mem_outbound_iff g hg n x).mp hx)
  · intro x hx
    rcases List.mem_append.mp hx with hx | hx
    · exact inv.preach x hx
    · rw [List.mem_singleton] at hx
      subst hx
      exact hreachn
  · intro r hr hop
    rcases inv.rootscov r hr hop with h | h
    · exact Or.inl (List.mem_append.mpr (Or.inl h))
    · rcases List.mem_cons.mp h with rfl | h
      · exact Or.inl (List.mem_append.mpr (Or.inr (by simp)))
      · exact Or.inr (List.mem_append.mpr (Or.inl h))
  · intro p hp m hm
    rcases List.mem_append.mp hp with hp | hp
    · rcases inv.closure p hp m hm with h | h
      · exact Or.inl (List.mem_append.mpr (Or.inl h))
      · rcases List.mem_cons.mp h with rfl | h
        · exact Or.inl (List.mem_append.mpr (Or.inr (by simp)))
        · exact Or.inr (List.mem_append.mpr (Or.inl h))
    · rw [List.mem_singleton] at hp
      subst hp
      exact Or.inr (List.mem_append.mpr (Or.inr ((mem_outbound_iff g hg p m).mpr hm)))
  · intro m x
    rw [processOut_fst_mem, inv.ginchar]
    constructor
    · rintro (⟨h1, h2⟩ | ⟨rfl, h⟩)
      · exact ⟨List.mem_append.mpr (Or.inl h1), h2⟩
      · exact ⟨List.mem_append.mpr (Or.inr (by simp)), (mem_outbound_iff g hg x m).mp h⟩
    · rintro ⟨h1, h2⟩
      rcases List.mem_append.mp h1 with h1 | h1
      · exact Or.inl ⟨h1, h2⟩
      · rw [List.mem_singleton] at h1
        subst h1
        exact Or.inr ⟨rfl, (mem_outbound_iff g hg x m).mpr h2⟩
  · intro j x
    rw [processOut_snd_mem, inv.goutchar]
    constructor
    · rintro (⟨h1, h2⟩ | ⟨rfl, h⟩)
      · exact ⟨List.mem_append.mpr (Or.inl h1), h2⟩
      · exact ⟨List.mem_append.mpr (Or.inr (by simp)), (mem_outbound_iff g hg j x).mp h⟩
    · rintro ⟨h1, h2⟩
      rcases List.mem_append.mp h1 with h1 | h1
      · exact Or.inl ⟨h1, h2⟩
      · rw [List.mem_singleton] at h1
        subst h1
        exact Or.inr ⟨rfl, (mem_outbound_iff g hg j x).mpr h2⟩
  · exact processOut_fst_nodup n (outbound g n) gin gout inv.ginnd
  · exact processOut_snd_nodup n (outbound g n) gin gout inv.goutnd

theorem bfsAux_ok (g : Graph) (hg : GW g) :
    ∀ (fuel : Nat) (queue proc : List Nat) (gin gout : Nat → List Nat),
      BfsInv g queue proc gin gout → potB g queue < fuel →
      ∃ gin2 gout2 proc2,
        bfsAux g fuel queue gin gout proc = some (gin2, gout2, proc2) ∧
        BfsInv g [] proc2 gin2 gout2 ∧
        (∀ x ∈ proc, x ∈ proc2) := by
  intro fuel
  induction fuel with
  | zero =>
    intro queue proc gin gout _ hpot
    exact absurd hpot (Nat.not_lt_zero _)
  | succ f ih =>
    intro queue proc gin gout inv hpot
    cases queue with
    | nil => exact ⟨gin, gout, proc, rfl, inv, fun x hx => hx⟩
    | cons n rest =>
      have hn : n < g.length := (inv.qreach n (by simp)).lt_length
      have hdec : potB g (rest ++ outbound g n) < potB g (n :: rest) := by
        rw [potB_append, potB_cons]
        have := potB_out_lt g hg n hn
        omega
      have hpot2 : potB g (rest ++ outbound g n) < f := by
        rw [potB_cons] at hpot
        rw [potB_cons] at hdec
        omega
      obtain ⟨gin2, gout2, proc2, hrun, hinv, hsub⟩ :=
        ih (rest ++ outbound g n) (proc ++ [n])
          (processOut n (outbound g n) gin gout).1
          (processOut n (outbound g n) gin gout).2
          (bfs_step g hg n rest proc gin gout inv) hpot2
      refine ⟨gin2, gout2, proc2, ?_, hinv, ?_⟩
      · simpa [bfsAux] using hrun
      · intro x hx
        exact hsub x (List.mem_append.mpr (Or.inl hx))

theorem BfsInv_init (g : Graph) :
    BfsInv g (inputsOf g) [] (fun _ => []) (fun _ => []) := by
  constructor
  · intro n hn
    rw [mem_inputsOf] at hn
    exact Reach.root n hn.1 hn.2
  · intro n hn
    simp at hn
  · intro r hr hop
    exact Or.inr ((mem_inputsOf g r).mpr ⟨hr, hop⟩)
  · intro p hp
    simp at hp
  · intro m x
    simp
  · intro j x
    simp
  · intro m
    exact List.nodup_nil
  · intro j
    exact List.nodup_nil

theorem bfsPhase_ok (g : Graph) (hg : GW g) :
    ∃ gin gout proc, bfsPhase g = some (gin, gout, proc) ∧ BfsInv g [] proc gin gout := by
  obtain ⟨gin, gout, proc, hrun, hinv, _⟩ :=
    bfsAux_ok g hg (bfsFuel g) (inputsOf g) [] (fun _ => []) (fun _ => [])
      (BfsInv_init g) (by unfold bfsFuel; omega)
  exact ⟨gin, gout, proc, hrun, hinv⟩

theorem BfsInv_final_reach (g : Graph) (proc : List Nat) (gin gout : Nat → List Nat)
    (inv : BfsInv g [] proc gin gout) : ∀ j, Reach g j → j ∈ proc := by
  intro j hj
  induction hj with
  | root j h1 h2 =>
    rcases inv.rootscov j h1 h2 with h | h
    · exact h
    · simp at h
  | step p j _ hin ih =>
    rcases inv.closure p ih j hin with h | h
    · exact h
    · simp at h

theorem BfsInv_final_gin (g : Graph) (proc : List Nat) (gin gout : Nat → List Nat)
    (inv : BfsInv g [] proc gin gout) :
    ∀ m x, x ∈ gin m ↔ (Reach g x ∧ x ∈ inbound g m) := by
  intro m x
  rw [inv.ginchar]
  constructor
  · rintro ⟨h1, h2⟩
    exact ⟨inv.preach x h1, h2⟩
  · rintro ⟨h1, h2⟩
    exact ⟨BfsInv_final_reach g proc gin gout inv x h1, h2⟩

theorem BfsInv_final_gout (g : Graph) (proc : List Nat) (gin gout : Nat → List Nat)
    (inv : BfsInv g [] proc gin gout) :
    ∀ j x, x ∈ gout j ↔ (Reach g j ∧ j ∈ inbound g x) := by
  intro j x
  rw [inv.goutchar]
  constructor
  · rintro ⟨h1, h2⟩
    exact ⟨inv.preach j h1, h2⟩
  · rintro ⟨h1, h2⟩
    exact ⟨BfsInv_final_reach g proc gin gout inv j h1, h2⟩

/-!
Phase 2 of `topological_sort` (src/miniflow.py lines 171-186): Kahn's
algorithm.  `S.pop()` takes an arbitrary element of the ready set; we model
the choice by a `pick` function (assumed to return a member).  Popping `n`
sets its value from the feed when it is an `Input` node, appends it to `L`,
and removes each edge `n → m` with Python `set.remove` — which raises
`KeyError` (modelled as `none`) when the element is absent, as happens when
a node lists the same inbound node twice.  A node whose pending in-set
empties is added to the ready set.
-/

def kahnEdges (g : Graph) (n : Nat) : List Nat → (Nat → List Nat) → (Nat → List Nat) →
    List Nat → Option ((Nat → List Nat) × (Nat → List Nat) × List Nat)
  | [], gin, gout, s => some (gin, gout, s)
  | m :: ms, gin, gout, s =>
      match removeElem (gout n) m with
      | none => none
      | some go2 =>
          match removeElem (gin m) n with
          | none => none
          | some gi2 =>
              kahnEdges g n ms (updf gin m gi2) (updf gout n go2)
                (if gi2 = [] then setInsert s m else s)

def kahnAux (g : Graph) {V : Type} (feed : Nat → V) (pick : List Nat → Nat) :
    Nat → List Nat → (Nat → List Nat) → (Nat → List Nat) → List Nat → List (Option V) →
    Option (List Nat × List (Option V))
  | _, [], _, _, L, vals => some (L, vals)
  | 0, _ :: _, _, _, _, _ => none
  | fuel + 1, s0 :: srest, gin, gout, L, vals =>
      match kahnEdges g (pick (s0 :: srest)) (outbound g (pick (s0 :: srest))) gin gout
          ((s0 :: srest).erase (pick (s0 :: srest))) with
      | none => none
      | some (gin2, gout2, s2) =>
          kahnAux g feed pick fuel s2 gin2 gout2 (L ++ [pick (s0 :: srest)])
            (if nodeOp g (pick (s0 :: srest)) = NodeOp.input
             then vals.set (pick (s0 :: srest)) (some (feed (pick (s0 :: srest))))
             else vals)

/-- Total size of the pending in-edge sets below index `N`; together with the
ready-set size this strictly decreases at every pop. -/
def gradSum (gin : Nat → List Nat) : Nat → Nat
  | 0 => 0
  | k + 1 => gradSum gin k + (gin k).length

def kahnFuel (g : Graph) (gin : Nat → List Nat) (s : List Nat) : Nat :=
  s.length + gradSum gin g.length + 1

/-- `topological_sort(feed_dict)` (src/miniflow.py lines 155-186).  Returns
the output order `L` together with the per-node `value` state (all `None`
before the sort, as freshly constructed nodes have `value = None`), or
`none` when the Python code raises. -/
def topologicalSortP {V : Type} (pick : List Nat → Nat) (g : Graph) (feed : Nat → V) :
    Option (List Nat × List (Option V)) :=
  match bfsPhase g with
  | none => none
  | some (gin, gout, _) =>
      kahnAux g feed pick (kahnFuel g gin (inputsOf g)) (inputsOf g) gin gout []
        (List.replicate g.length none)

theorem gradSum_congr (f h : Nat → List Nat) :
    ∀ N, (∀ i, i < N → f i = h i) → gradSum f N = gradSum h N := by
  intro N
  induction N with
  | zero => intro _; rfl
  | succ k ih =>
    intro hfh
    unfold gradSum
    rw [ih (fun i hi => hfh i (by omega)), hfh k (by omega)]

theorem gradSum_update (gin : Nat → List Nat) (m : Nat) (v : List Nat) :
    ∀ N, m < N → gradSum (updf gin m v) N + (gin m).length = gradSum gin N + v.length := by
  intro N
  induction N with
  | zero => intro h; omega
  | succ k ih =>
    intro hm
    unfold gradSum
    by_cases hmk : m = k
    · subst hmk
      have hagree : gradSum (updf gin m v) m = gradSum gin m := by
        apply gradSum_congr
        intro i hi
        exact updf_other _ _ _ _ (by omega)
      rw [hagree, updf_same]
      omega
    · have hmlt : m < k := by omega
      have := ih hmlt
      rw [updf_other _ _ _ _ (fun h => hmk h.symm)]
      omega

theorem kahnEdges_ok (g : Graph) (hg : GW g) (L : List Nat) (n : Nat)
    (hreach : Reach g n) (hnL : n ∉ L)
    (hond : (outbound g n).Nodup) :
    ∀ (ms pre : List Nat), outbound g n = pre ++ ms →
      ∀ (gin gout : Nat → List Nat) (S2 : List Nat),
      (∀ m x, x ∈ gin m ↔ (Reach g x ∧ x ∈ inbound g m ∧ x ∉ L ∧ ¬(x = n ∧ m ∈ pre))) →
      (∀ j x, x ∈ gout j ↔ (Reach g j ∧ j ∈ inbound g x ∧ j ∉ L ∧ ¬(j = n ∧ x ∈ pre))) →
      (∀ x, x ∈ S2 ↔ ((Reach g x ∧ x ∉ L ∧ x ≠ n ∧ (∀ p ∈ inbound g x, Reach g p → p ∈ L)) ∨
        (x ∈ pre ∧ (∀ p ∈ inbound g x, Reach g p → p ∈ L ∨ p = n)))) →
      (∀ m, (gin m).Nodup) → (∀ j, (gout j).Nodup) → S2.Nodup →
      ∀ Φ, S2.length + gradSum gin g.length ≤ Φ →
      ∃ gin2 gout2 S3,
        kahnEdges g n ms gin gout S2 = some (gin2, gout2, S3) ∧
        (∀ m x, x ∈ gin2 m ↔
          (Reach g x ∧ x ∈ inbound g m ∧ x ∉ L ∧ ¬(x = n ∧ m ∈ pre ++ ms))) ∧
        (∀ j x, x ∈ gout2 j ↔
          (Reach g j ∧ j ∈ inbound g x ∧ j ∉ L ∧ ¬(j = n ∧ x ∈ pre ++ ms))) ∧
        (∀ x, x ∈ S3 ↔ ((Reach g x ∧ x ∉ L ∧ x ≠ n ∧ (∀ p ∈ inbound g x, Reach g p → p ∈ L)) ∨
          ((x ∈ pre ++ ms) ∧ (∀ p ∈ inbound g x, Reach g p → p ∈ L ∨ p = n)))) ∧
        (∀ m, (gin2 m).Nodup) ∧ (∀ j, (gout2 j).Nodup) ∧ S3.Nodup ∧
        S3.length + gradSum gin2 g.length ≤ Φ := by
  intro ms
  induction ms with
  | nil =>
    intro pre hsplit gin gout S2 hgin hgout hS hgind hgoutd hSnd Φ hΦ
    refine ⟨gin, gout, S2, rfl, ?_, ?_, ?_, hgind, hgoutd, hSnd, hΦ⟩
    · simpa using hgin
    · simpa using hgout
    · simpa using hS
  | cons m ms2 ih =>
    intro pre hsplit gin gout S2 hgin hgout hS hgind hgoutd hSnd Φ hΦ
    have hmout : m ∈ outbound g n := by rw [hsplit]; simp
    have hmpre : m ∉ pre := by
      have hd := List.disjoint_of_nodup_append (by rw [← hsplit]; exact hond)
      intro hc
      exact hd hc (by simp)
    have hmlen : m < g.length := mem_outbound_lt_length g hg hmout
    have hninm : n ∈ inbound g m := (mem_outbound_iff g hg n m).mp hmout
    -- the two set removals succeed
    have hmgout : m ∈ gout n := by
      rw [hgout n m]
      exact ⟨hreach, hninm, hnL, by simp [hmpre]⟩
    have hngin : n ∈ gin m := by
      rw [hgin m n]
      exact ⟨hreach, hninm, hnL, by simp [hmpre]⟩
    have hongout : removeElem (gout n) m = some ((gout n).erase m) :=
      removeElem_of_mem _ _ hmgout
    have hongin : removeElem (gin m) n = some ((gin m).erase n) :=
      removeElem_of_mem _ _ hngin
    -- new state after processing edge (n, m)
    have hsplit2 : outbound g n = (pre ++ [m]) ++ ms2 := by
      rw [hsplit, List.append_assoc]
      rfl
    have hgin2 : ∀ m2 x, x ∈ updf gin m ((gin m).erase n) m2 ↔
        (Reach g x ∧ x ∈ inbound g m2 ∧ x ∉ L ∧ ¬(x = n ∧ m2 ∈ pre ++ [m])) := by
      intro m2 x
      by_cases hm2 : m2 = m
      · rw [hm2, updf_same, (hgind m).mem_erase_iff, hgin m x]
        constructor
        · rintro ⟨hxn, h1, h2, h3, _⟩
          exact ⟨h1, h2, h3, by simp [hxn]⟩
        · rintro ⟨h1, h2, h3, h4⟩
          have hxn : x ≠ n := by
            intro hx
            exact h4 ⟨hx, by simp⟩
          exact ⟨hxn, h1, h2, h3, by simp [hxn]⟩
      · rw [updf_other _ _ _ _ hm2, hgin m2 x]
        constructor
        · rintro ⟨h1, h2, h3, h4⟩
          refine ⟨h1, h2, h3, ?_⟩
          rintro ⟨rfl, hmem⟩
          rcases List.mem_append.mp hmem with hmem | hmem
          · exact h4 ⟨rfl, hmem⟩
          · rw [List.mem_singleton] at hmem
            exact hm2 hmem
        · rintro ⟨h1, h2, h3, h4⟩
          refine ⟨h1, h2, h3, ?_⟩
          rintro ⟨rfl, hmem⟩
          exact h4 ⟨rfl, List.mem_append.mpr (Or.inl hmem)⟩
    have hgout2 : ∀ j x, x ∈ updf gout n ((gout n).erase m) j ↔
        (Reach g j ∧ j ∈ inbound g x ∧ j ∉ L ∧ ¬(j = n ∧ x ∈ pre ++ [m])) := by
      intro j x
      by_cases hj : j = n
      · rw [hj, updf_same, (hgoutd n).mem_erase_iff, hgout n x]
        constructor
        · rintro ⟨hxm, h1, h2, h3, h4⟩
          refine ⟨h1, h2, h3, ?_⟩
          rintro ⟨-, hmem⟩
          rcases List.mem_append.mp hmem with hmem | hmem
          · exact h4 ⟨rfl, hmem⟩
          · rw [List.mem_singleton] at hmem
            exact hxm hmem
        · rintro ⟨h1, h2, h3, h4⟩
          have hxm : x ≠ m := by
            intro hx
            exact h4 ⟨rfl, by simp [hx]⟩
          refine ⟨hxm, h1, h2, h3, ?_⟩
          rintro ⟨-, hmem⟩
          exact h4 ⟨rfl, List.mem_append.mpr (Or.inl hmem)⟩
      · rw [updf_other _ _ _ _ hj, hgout j x]
        constructor
        · rintro ⟨h1, h2, h3, h4⟩
          refine ⟨h1, h2, h3, ?_⟩
          rintro ⟨hjn, -⟩
          exact hj hjn
        · rintro ⟨h1, h2, h3, h4⟩
          refine ⟨h1, h2, h3, ?_⟩
          rintro ⟨hjn, -⟩
          exact hj hjn
    -- the emptiness test detects exactly "all reachable parents done or = n"
    have hempty : (gin m).erase n = [] ↔
        (∀ p ∈ inbound g m, Reach g p → p ∈ L ∨ p = n) := by
      rw [List.eq_nil_iff_forall_not_mem]
      constructor
      · intro h p hp hrp
        by_cases hpn : p = n
        · exact Or.inr hpn
        · by_cases hpL : p ∈ L
          · exact Or.inl hpL
          · exfalso
            apply h p
            rw [(hgind m).mem_erase_iff, hgin m p]
            exact ⟨hpn, hrp, hp, hpL, fun hc => hpn hc.1⟩
      · intro h x
        rw [(hgind m).mem_erase_iff, hgin m x]
        rintro ⟨hxn, h1, h2, h3, -⟩
        rcases h x h2 h1 with hc | hc
        · exact h3 hc
        · exact hxn hc
    have hS2m : m ∉ S2 := by
      rw [hS m]
      rintro (⟨-, -, -, hdone⟩ | ⟨hmem, -⟩)
      · rcases hdone n hninm hreach with hc
        exact hnL hc
      · exact hmpre hmem
    have hSnew : ∀ x, x ∈ (if (gin m).erase n = [] then setInsert S2 m else S2) ↔
        ((Reach g x ∧ x ∉ L ∧ x ≠ n ∧ (∀ p ∈ inbound g x, Reach g p → p ∈ L)) ∨
          ((x ∈ pre ++ [m]) ∧ (∀ p ∈ inbound g x, Reach g p → p ∈ L ∨ p = n))) := by
      intro x
      by_cases hcond : (gin m).erase n = []
      · rw [if_pos hcond, mem_setInsert, hS x]
        constructor
        · rintro ((h | ⟨hmem, hpar⟩) | rfl)
          · exact Or.inl h
          · exact Or.inr ⟨List.mem_append.mpr (Or.inl hmem), hpar⟩
          · exact Or.inr ⟨List.mem_append.mpr (Or.inr (by simp)), hempty.mp hcond⟩
        · rintro (h | ⟨hmem, hpar⟩)
          · exact Or.inl (Or.inl h)
          · rcases List.mem_append.mp hmem with hmem | hmem
            · exact Or.inl (Or.inr ⟨hmem, hpar⟩)
            · rw [List.mem_singleton] at hmem
              exact Or.inr hmem
      · rw [if_neg hcond, hS x]
        constructor
        · rintro (h | ⟨hmem, hpar⟩)
          · exact Or.inl h
          · exact Or.inr ⟨List.mem_append.mpr (Or.inl hmem), hpar⟩
        · rintro (h | ⟨hmem, hpar⟩)
          · exact Or.inl h
          · rcases List.mem_append.mp hmem with hmem | hmem
            · exact Or.inr ⟨hmem, hpar⟩
            · rw [List.mem_singleton] at hmem
              subst hmem
              exact absurd (hempty.mpr hpar) hcond
    have hgind2 : ∀ m2, (updf gin m ((gin m).erase n) m2).Nodup := by
      intro m2
      by_cases hm2 : m2 = m
      · rw [hm2, updf_same]
        exact (hgind m).erase n
      · rw [updf_other _ _ _ _ hm2]
        exact hgind m2
    have hgoutd2 : ∀ j, (updf gout n ((gout n).erase m) j).Nodup := by
      intro j
      by_cases hj : j = n
      · rw [hj, updf_same]
        exact (hgoutd n).erase m
      · rw [updf_other _ _ _ _ hj]
        exact hgoutd j
    have hSnd2 : (if (gin m).erase n = [] then setInsert S2 m else S2).Nodup := by
      by_cases hcond : (gin m).erase n = []
      · rw [if_pos hcond]
        exact setInsert_nodup _ _ hSnd
      · rw [if_neg hcond]
        exact hSnd
    -- bookkeeping: potential does not increase
    have hΦ2 : (if (gin m).erase n = [] then setInsert S2 m else S2).length +
        gradSum (updf gin m ((gin m).erase n)) g.length ≤ Φ := by
      have hupd := gradSum_update gin m ((gin m).erase n) g.length hmlen
      have herase : ((gin m).erase n).length = (gin m).length - 1 :=
        List.length_erase_of_mem hngin
      have hpos : 1 ≤ (gin m).length := List.length_pos.mpr (List.ne_nil_of_mem hngin)
      by_cases hcond : (gin m).erase n = []
      · rw [if_pos hcond, setInsert_length_of_not_mem _ _ hS2m]
        omega
      · rw [if_neg hcond]
        omega
    obtain ⟨gin3, gout3, S4, hrun, c1, c2, c3, c4, c5, c6, c7⟩ :=
      ih (pre ++ [m]) hsplit2 _ _ _ hgin2 hgout2 hSnew hgind2 hgoutd2 hSnd2 Φ hΦ2
    refine ⟨gin3, gout3, S4, ?_, ?_, ?_, ?_, c4, c5, c6, c7⟩
    · unfold kahnEdges
      rw [hongout, hongin]
      exact hrun
    · intro m2 x
      rw [c1 m2 x]
      rw [List.append_assoc]
      rfl
    · intro j x
      rw [c2 j x]
      rw [List.append_assoc]
      rfl
    · intro x
      rw [c3 x]
      rw [List.append_assoc]
      rfl

theorem getD_set_self {A : Type} (d : A) :
    ∀ (l : List A) (i : Nat) (a : A), i < l.length → (l.set i a).getD i d = a := by
  intro l
  induction l with
  | nil => intro i a h; simp at h
  | cons x xs ih =>
    intro i a h
    cases i with
    | zero => rfl
    | succ k =>
      have := ih k a (by simpa using h)
      simpa [List.set] using this

theorem getD_set_other {A : Type} (d : A) :
    ∀ (l : List A) (i j : Nat) (a : A), j ≠ i → (l.set i a).getD j d = l.getD j d := by
  intro l
  induction l with
  | nil => intro i j a _; simp [List.set]
  | cons x xs ih =>
    intro i j a hij
    cases i with
    | zero =>
      cases j with
      | zero => exact absurd rfl hij
      | succ k => rfl
    | succ i2 =>
      cases j with
      | zero => rfl
      | succ k =>
        have := ih i2 k a (fun h => hij (by omega))
        simpa [List.set] using this

/-- Loop invariant of the Kahn phase: `L` is the emitted prefix of the order,
`S` the ready set, the edge sets hold exactly the still-pending edges among
reachable nodes, and `vals` records the feed values written so far. -/
structure KahnInv (g : Graph) {V : Type} (feed : Nat → V) (S L : List Nat)
    (gin gout : Nat → List Nat) (vals : List (Option V)) : Prop where
  lreach : ∀ b ∈ L, Reach g b
  lnd : L.Nodup
  lparents : ∀ b ∈ L, ∀ a ∈ inbound g b, Reach g a → a ∈ L
  lpair : L.Pairwise (fun x y => y ∉ inbound g x)
  schar : ∀ x, x ∈ S ↔
    (Reach g x ∧ x ∉ L ∧ ∀ p ∈ inbound g x, Reach g p → p ∈ L)
  snd : S.Nodup
  ginchar : ∀ m x, x ∈ gin m ↔ (Reach g x ∧ x ∈ inbound g m ∧ x ∉ L)
  goutchar : ∀ j x, x ∈ gout j ↔ (Reach g j ∧ j ∈ inbound g x ∧ j ∉ L)
  ginnd : ∀ m, (gin m).Nodup
  goutnd : ∀ j, (gout j).Nodup
  vlen : vals.length = g.length
  vchar : ∀ i, nodeOp g i = NodeOp.input → i ∈ L → vals.getD i none = some (feed i)

theorem kahn_step (g : Graph) (hg : GW g) (hond : ∀ i, (outbound g i).Nodup)
    {V : Type} (feed : Nat → V) (S L : List Nat) (gin gout : Nat → List Nat)
    (vals : List (Option V)) (inv : KahnInv g feed S L gin gout vals)
    (n : Nat) (hn : n ∈ S) :
    ∃ gin2 gout2 S2,
      kahnEdges g n (outbound g n) gin gout (S.erase n) = some (gin2, gout2, S2) ∧
      KahnInv g feed S2 (L ++ [n]) gin2 gout2
        (if nodeOp g n = NodeOp.input then vals.set n (some (feed n)) else vals) ∧
      S2.length + gradSum gin2 g.length + 1 ≤ S.length + gradSum gin g.length := by
  obtain ⟨hreach, hnL, hpar⟩ := (inv.schar n).mp hn
  have hgin0 : ∀ m x, x ∈ gin m ↔
      (Reach g x ∧ x ∈ inbound g m ∧ x ∉ L ∧ ¬(x = n ∧ m ∈ ([] : List Nat))) := by
    intro m x
    rw [inv.ginchar m x]
    simp
  have hgout0 : ∀ j x, x ∈ gout j ↔
      (Reach g j ∧ j ∈ inbound g x ∧ j ∉ L ∧ ¬(j = n ∧ x ∈ ([] : List Nat))) := by
    intro j x
    rw [inv.goutchar j x]
    simp
  have hS0 : ∀ x, x ∈ S.erase n ↔
      ((Reach g x ∧ x ∉ L ∧ x ≠ n ∧ (∀ p ∈ inbound g x, Reach g p → p ∈ L)) ∨
        ((x ∈ ([] : List Nat)) ∧ (∀ p ∈ inbound g x, Reach g p → p ∈ L ∨ p = n))) := by
    intro x
    rw [inv.snd.mem_erase_iff, inv.schar x]
    constructor
    · rintro ⟨hxn, h1, h2, h3⟩
      exact Or.inl ⟨h1, h2, hxn, h3⟩
    · rintro (⟨h1, h2, hxn, h3⟩ | ⟨hmem, -⟩)
      · exact ⟨hxn, h1, h2, h3⟩
      · simp at hmem
  have hSlen : (S.erase n).length = S.length - 1 := List.length_erase_of_mem hn
  have hSpos : 1 ≤ S.length := List.length_pos.mpr (List.ne_nil_of_mem hn)
  obtain ⟨gin2, gout2, S2, hrun, c1, c2, c3, c4, c5, c6, c7⟩ :=
    kahnEdges_ok g hg L n hreach hnL (hond n) (outbound g n) [] (by simp)
      gin gout (S.erase n) hgin0 hgout0 hS0 inv.ginnd inv.goutnd (inv.snd.erase n)
      (S.length + gradSum gin g.length - 1) (by omega)
  refine ⟨gin2, gout2, S2, hrun, ?_, by omega⟩
  have hninLapp : ∀ x, x ∉ L ++ [n] ↔ (x ∉ L ∧ x ≠ n) := by
    intro x
    simp
  constructor
  · intro b hb
    rcases List.mem_append.mp hb with hb | hb
    · exact inv.lreach b hb
    · rw [List.mem_singleton] at hb
      subst hb
      exact hreach
  · rw [← List.concat_eq_append]
    exact inv.lnd.concat hnL
  · intro b hb a ha hra
    rcases List.mem_append.mp hb with hb | hb
    · exact List.mem_append.mpr (Or.inl (inv.lparents b hb a ha hra))
    · rw [List.mem_singleton] at hb
      subst hb
      exact List.mem_append.mpr (Or.inl (hpar a ha hra))
  · rw [List.pairwise_append]
    refine ⟨inv.lpair, List.pairwise_singleton _ _, ?_⟩
    intro x hx y hy
    rw [List.mem_singleton] at hy
    subst hy
    intro hc
    exact hnL (inv.lparents x hx y hc hreach)
  · intro x
    rw [c3 x]
    simp only [List.nil_append]
    constructor
    · rintro (⟨h1, h2, h3, h4⟩ | ⟨hmem, hpar2⟩)
      · refine ⟨h1, (hninLapp x).mpr ⟨h2, h3⟩, ?_⟩
        intro p hp hrp
        exact List.mem_append.mpr (Or.inl (h4 p hp hrp))
      · have hnx : n ∈ inbound g x := (mem_outbound_iff g hg n x).mp hmem
        have hxreach : Reach g x := Reach.step n x hreach hnx
        have hxneqn : x ≠ n := by
          have := mem_outbound_gt g hg hmem
          omega
        have hxnL : x ∉ L := by
          intro hc
          exact hnL (inv.lparents x hc n hnx hreach)
        refine ⟨hxreach, (hninLapp x).mpr ⟨hxnL, hxneqn⟩, ?_⟩
        intro p hp hrp
        rcases hpar2 p hp hrp with h | h
        · exact List.mem_append.mpr (Or.inl h)
        · subst h
          exact List.mem_append.mpr (Or.inr (by simp))
    · rintro ⟨h1, h2, h3⟩
      rw [hninLapp x] at h2
      by_cases hnx : n ∈ inbound g x
      · refine Or.inr ⟨(mem_outbound_iff g hg n x).mpr hnx, ?_⟩
        intro p hp hrp
        rcases List.mem_append.mp (h3 p hp hrp) with h | h
        · exact Or.inl h
        · rw [List.mem_singleton] at h
          exact Or.inr h
      · refine Or.inl ⟨h1, h2.1, h2.2, ?_⟩
        intro p hp hrp
        rcases List.mem_append.mp (h3 p hp hrp) with h | h
        · exact h
        · rw [List.mem_singleton] at h
          subst h
          exact absurd hp hnx
  · exact c6
  · intro m x
    rw [c1 m x]
    simp only [List.nil_append]
    constructor
    · rintro ⟨h1, h2, h3, h4⟩
      refine ⟨h1, h2, ?_⟩
      rw [hninLapp x]
      refine ⟨h3, ?_⟩
      intro hc
      subst hc
      exact h4 ⟨rfl, (mem_outbound_iff g hg x m).mpr h2⟩
    · rintro ⟨h1, h2, h3⟩
      rw [hninLapp x] at h3
      refine ⟨h1, h2, h3.1, ?_⟩
      rintro ⟨rfl, -⟩
      exact h3.2 rfl
  · intro j x
    rw [c2 j x]
    simp only [List.nil_append]
    constructor
    · rintro ⟨h1, h2, h3, h4⟩
      refine ⟨h1, h2, ?_⟩
      rw [hninLapp j]
      refine ⟨h3, ?_⟩
      intro hc
      subst hc
      exact h4 ⟨rfl, (mem_outbound_iff g hg j x).mpr h2⟩
    · rintro ⟨h1, h2, h3⟩
      rw [hninLapp j] at h3
      refine ⟨h1, h2, h3.1, ?_⟩
      rintro ⟨rfl, -⟩
      exact h3.2 rfl
  · exact c4
  · exact c5
  · by_cases hin : nodeOp g n = NodeOp.input
    · rw [if_pos hin, List.length_set]
      exact inv.vlen
    · rw [if_neg hin]
      exact inv.vlen
  · intro i hi hiL
    rcases List.mem_append.mp hiL with hiL2 | hiL2
    · have hineqn : i ≠ n := by
        intro hc
        rw [hc] at hiL2
        exact hnL hiL2
      by_cases hin : nodeOp g n = NodeOp.input
      · rw [if_pos hin, getD_set_other _ _ _ _ _ hineqn]
        exact inv.vchar i hi hiL2
      · rw [if_neg hin]
        exact inv.vchar i hi hiL2
    · rw [List.mem_singleton] at hiL2
      subst hiL2
      rw [if_pos hi, getD_set_self]
      rw [inv.vlen]
      exact hreach.lt_length

theorem kahnAux_ok (g : Graph) (hg : GW g) (hond : ∀ i, (outbound g i).Nodup)
    {V : Type} (feed : Nat → V) (pick : List Nat → Nat)
    (hpick : ∀ l : List Nat, l ≠ [] → pick l ∈ l) :
    ∀ (fuel : Nat) (S L : List Nat) (gin gout : Nat → List Nat) (vals : List (Option V)),
      KahnInv g feed S L gin gout vals →
      S.length + gradSum gin g.length < fuel →
      ∃ L2 vals2 gin2 gout2,
        kahnAux g feed pick fuel S gin gout L vals = some (L2, vals2) ∧
        KahnInv g feed [] L2 gin2 gout2 vals2 := by
  intro fuel
  induction fuel with
  | zero =>
    intro S L gin gout vals _ hΦ
    exact absurd hΦ (Nat.not_lt_zero _)
  | succ f ih =>
    intro S L gin gout vals inv hΦ
    cases S with
    | nil => exact ⟨L, vals, gin, gout, rfl, inv⟩
    | cons s0 srest =>
      have hn : pick (s0 :: srest) ∈ s0 :: srest := hpick _ (by simp)
      obtain ⟨gin2, gout2, S2, hrun, hinv2, hdec⟩ :=
        kahn_step g hg hond feed (s0 :: srest) L gin gout vals inv (pick (s0 :: srest)) hn
      obtain ⟨L2, vals2, gin3, gout3, hrun2, hinv3⟩ :=
        ih S2 (L ++ [pick (s0 :: srest)]) gin2 gout2
          (if nodeOp g (pick (s0 :: srest)) = NodeOp.input
           then vals.set (pick (s0 :: srest)) (some (feed (pick (s0 :: srest))))
           else vals)
          hinv2 (by omega)
      refine ⟨L2, vals2, gin3, gout3, ?_, hinv3⟩
      unfold kahnAux
      rw [hrun]
      exact hrun2

theorem KahnInv_final_complete (g : Graph) (hg : GW g) {V : Type} (feed : Nat → V)
    (L : List Nat) (gin gout : Nat → List Nat) (vals : List (Option V))
    (inv : KahnInv g feed [] L gin gout vals) : ∀ j, Reach g j → j ∈ L := by
  intro j
  induction j using Nat.strong_induction_on with
  | _ j ih =>
    intro hj
    by_contra hjL
    have hpar : ∀ p ∈ inbound g j, Reach g p → p ∈ L := by
      intro p hp hrp
      exact ih p (hg.edges_lt j p hp) hrp
    have : j ∈ ([] : List Nat) := (inv.schar j).mpr ⟨hj, hjL, hpar⟩
    simp at this

theorem order_of_pairwise (g : Graph) (hg : GW g) (L : List Nat) (lnd : L.Nodup)
    (lpair : L.Pairwise (fun x y => y ∉ inbound g x)) :
    ∀ a b, a ∈ inbound g b → a ∈ L → b ∈ L → L.indexOf a < L.indexOf b := by
  intro a b hab ha hb
  have hia : L.indexOf a < L.length := List.indexOf_lt_length.mpr ha
  have hib : L.indexOf b < L.length := List.indexOf_lt_length.mpr hb
  have hga : L[L.indexOf a] = a := List.getElem_indexOf hia
  have hgb : L[L.indexOf b] = b := List.getElem_indexOf hib
  by_contra hc
  rcases Nat.lt_or_ge (L.indexOf b) (L.indexOf a) with hlt | hge
  · have := (List.pairwise_iff_getElem.mp lpair) _ _ hib hia hlt
    rw [hga, hgb] at this
    exact this hab
  · have heq : L.indexOf a = L.indexOf b := by omega
    have hab2 : a = b := (List.indexOf_inj ha hb).mp heq
    have hlt2 : a < b := hg.edges_lt b a hab
    omega

theorem KahnInv_init (g : Graph) (hg : GW g) {V : Type} (feed : Nat → V)
    (gin gout : Nat → List Nat) (proc : List Nat)
    (binv : BfsInv g [] proc gin gout) :
    KahnInv g feed (inputsOf g) [] gin gout
      (List.replicate g.length (none : Option V)) := by
  constructor
  · intro b hb
    simp at hb
  · exact List.nodup_nil
  · intro b hb
    simp at hb
  · exact List.Pairwise.nil
  · intro x
    rw [mem_inputsOf]
    constructor
    · rintro ⟨h1, h2⟩
      refine ⟨Reach.root x h1 h2, by simp, ?_⟩
      intro p hp
      rw [hg.input_leaf x h2] at hp
      simp at hp
    · rintro ⟨h1, -, h3⟩
      cases h1 with
      | root j hj1 hj2 => exact ⟨hj1, hj2⟩
      | step p j hp hin =>
        have := h3 p hin hp
        simp at this
  · exact inputsOf_nodup g
  · intro m x
    rw [BfsInv_final_gin g proc gin gout binv m x]
    simp
  · intro j x
    rw [BfsInv_final_gout g proc gin gout binv j x]
    simp
  · exact binv.ginnd
  · exact binv.goutnd
  · exact List.length_replicate _ _
  · intro i _ hi
    simp at hi

/-- Core correctness of the embedded `topological_sort` under the amended
hypotheses: well-formed constructor calls, duplicate-free inbound lists, and
a pick function that returns a member of the ready set. -/
theorem topologicalSortP_ok (specs : List (NodeOp × List Nat)) (hwf : WFspecs specs)
    (hnd : NodupInb specs) {V : Type} (pick : List Nat → Nat)
    (hpick : ∀ l : List Nat, l ≠ [] → pick l ∈ l) (feed : Nat → V) :
    ∃ L vals gin gout,
      topologicalSortP pick (buildGraph specs) feed = some (L, vals) ∧
      KahnInv (buildGraph specs) feed [] L gin gout vals := by
  have hg : GW (buildGraph specs) := GW_buildGraph specs hwf
  have hinb : ∀ j, (inbound (buildGraph specs) j).Nodup := buildGraph_inb_nodup specs hnd
  have hond : ∀ i, (outbound (buildGraph specs) i).Nodup := fun i =>
    outbound_nodup _ hg hinb i
  obtain ⟨gin, gout, proc, hbfs, binv⟩ := bfsPhase_ok (buildGraph specs) hg
  obtain ⟨L2, vals2, gin2, gout2, hrun, hinv⟩ :=
    kahnAux_ok (buildGraph specs) hg hond feed pick hpick
      (kahnFuel (buildGraph specs) gin (inputsOf (buildGraph specs)))
      (inputsOf (buildGraph specs)) [] gin gout _
      (KahnInv_init _ hg feed gin gout proc binv) (by unfold kahnFuel; omega)
  refine ⟨L2, vals2, gin2, gout2, ?_, hinv⟩
  unfold topologicalSortP
  rw [hbfs]
  exact hrun

/-- The deterministic pick used by the witnesses: take the head of the ready
list (one admissible resolution of Python's arbitrary `set.pop`). -/
def pickHead : List Nat → Nat := fun l => l.headD 0

theorem pickHead_mem : ∀ l : List Nat, l ≠ [] → pickHead l ∈ l := by
  intro l hl
  cases l with
  | nil => exact absurd rfl hl
  | cons a rest => simp [pickHead]

/-- C1 (amended).  For every acyclic graph built from the node constructors
in which no node lists the same inbound node more than once, and a feed
whose keys are exactly the `Input` nodes, `topological_sort` returns (for
any resolution of the `set.pop` choice) a duplicate-free order containing
every node reachable from the leaves, in which every node appears strictly
after each of its inbound dependencies occurring in the order, and during
the sort every `Input` node's value is set to the value the feed supplies
for it.  (The original claim, without the duplicate-free restriction, is
refuted by `topological_sort_dup_inbound_counterexample`.) -/
theorem topological_sort_correct {V : Type} (specs : List (NodeOp × List Nat))
    (pick : List Nat → Nat) (feed : Nat → V)
    (hwf : WFspecs specs) (hnd : NodupInb specs)
    (hpick : ∀ l : List Nat, l ≠ [] → pick l ∈ l) :
    ∃ L vals,
      topologicalSortP pick (buildGraph specs) feed = some (L, vals) ∧
      L.Nodup ∧
      (∀ j, Reach (buildGraph specs) j → j ∈ L) ∧
      (∀ j ∈ L, Reach (buildGraph specs) j) ∧
      (∀ a b, a ∈ inbound (buildGraph specs) b → a ∈ L → b ∈ L →
        L.indexOf a < L.indexOf b) ∧
      (∀ i, nodeOp (buildGraph specs) i = NodeOp.input →
        vals.getD i none = some (feed i)) := by
  have hg : GW (buildGraph specs) := GW_buildGraph specs hwf
  obtain ⟨L, vals, gin, gout, hrun, hinv⟩ :=
    topologicalSortP_ok specs hwf hnd pick hpick feed
  refine ⟨L, vals, hrun, hinv.lnd, ?_, hinv.lreach, ?_, ?_⟩
  · exact KahnInv_final_complete _ hg feed L gin gout vals hinv
  · exact order_of_pairwise _ hg L hinv.lnd hinv.lpair
  · intro i hi
    have hilt : i < (buildGraph specs).length := by
      by_contra hc
      rw [nodeOp_of_ge _ _ (Nat.le_of_not_lt hc)] at hi
      cases hi
    have hreach : Reach (buildGraph specs) i := Reach.root i hilt hi
    exact hinv.vchar i hi
      (KahnInv_final_complete _ hg feed L gin gout vals hinv i hreach)

/-- C1 counterexample: the graph `x = Input(); m = Mul(x, x)` is acyclic,
built from the constructors, and its feed covers its only `Input` node, yet
`topological_sort` raises `KeyError` (the second `G[n]['out'].remove(m)` on
a duplicated edge removes from an already-emptied set), returning no order
at all. -/
theorem topological_sort_dup_inbound_counterexample :
    WFspecs [(NodeOp.input, []), (NodeOp.mul, [0, 0])] ∧
    topologicalSortP pickHead (buildGraph [(NodeOp.input, []), (NodeOp.mul, [0, 0])])
      (fun _ => (0 : Nat)) = none := by
  constructor
  · decide
  · decide

theorem topological_sort_correct_witness :
    WFspecs [(NodeOp.input, []), (NodeOp.sigmoid, [0])] ∧
    NodupInb [(NodeOp.input, []), (NodeOp.sigmoid, [0])] ∧
    (∃ L vals,
      topologicalSortP pickHead (buildGraph [(NodeOp.input, []), (NodeOp.sigmoid, [0])])
        (fun _ => (0 : Nat)) = some (L, vals) ∧
      L.Nodup ∧
      (∀ j, Reach (buildGraph [(NodeOp.input, []), (NodeOp.sigmoid, [0])]) j → j ∈ L) ∧
      (∀ j ∈ L, Reach (buildGraph [(NodeOp.input, []), (NodeOp.sigmoid, [0])]) j) ∧
      (∀ a b, a ∈ inbound (buildGraph [(NodeOp.input, []), (NodeOp.sigmoid, [0])]) b →
        a ∈ L → b ∈ L → L.indexOf a < L.indexOf b) ∧
      (∀ i, nodeOp (buildGraph [(NodeOp.input, []), (NodeOp.sigmoid, [0])]) i =
          NodeOp.input → vals.getD i none = some ((fun _ => (0 : Nat)) i))) :=
  ⟨by decide, by decide,
    topological_sort_correct [(NodeOp.input, []), (NodeOp.sigmoid, [0])] pickHead
      (fun _ => (0 : Nat)) (by decide) (by decide) pickHead_mem⟩

/-- C8 (amended).  The discovery traversal of `topological_sort` dequeues
and processes every node reachable from the given leaves at least once (a
node is enqueued once per discovered inbound edge, so it can be processed
more than once; the edge sets are unaffected by reprocessing because they
are sets), and everything processed is reachable.  (The original "exactly
once" claim is refuted by `bfs_visit_count_counterexample`.) -/
theorem bfs_visits_reachable (specs : List (NodeOp × List Nat)) (hwf : WFspecs specs) :
    ∃ gin gout proc, bfsPhase (buildGraph specs) = some (gin, gout, proc) ∧
      (∀ j, Reach (buildGraph specs) j → j ∈ proc) ∧
      (∀ j ∈ proc, Reach (buildGraph specs) j) := by
  have hg : GW (buildGraph specs) := GW_buildGraph specs hwf
  obtain ⟨gin, gout, proc, hrun, binv⟩ := bfsPhase_ok (buildGraph specs) hg
  exact ⟨gin, gout, proc, hrun, BfsInv_final_reach _ proc gin gout binv, binv.preach⟩

theorem bfs_visits_reachable_witness :
    WFspecs [(NodeOp.input, []), (NodeOp.input, []), (NodeOp.add, [0, 1])] ∧
    (∃ gin gout proc,
      bfsPhase (buildGraph [(NodeOp.input, []), (NodeOp.input, []), (NodeOp.add, [0, 1])]) =
        some (gin, gout, proc) ∧
      (∀ j, Reach (buildGraph [(NodeOp.input, []), (NodeOp.input, []), (NodeOp.add, [0, 1])]) j
        → j ∈ proc) ∧
      (∀ j ∈ proc,
        Reach (buildGraph [(NodeOp.input, []), (NodeOp.input, []), (NodeOp.add, [0, 1])]) j)) :=
  ⟨by decide,
    bfs_visits_reachable [(NodeOp.input, []), (NodeOp.input, []), (NodeOp.add, [0, 1])]
      (by decide)⟩

/-- C8 counterexample: in the graph `a = Input(); b = Input(); s = Add(a, b)`
the `Add` node (index 2) is reachable from the leaves but is dequeued and
processed twice by the discovery loop (once per inbound edge), not exactly
once. -/
theorem bfs_visit_count_counterexample :
    Reach (buildGraph [(NodeOp.input, []), (NodeOp.input, []), (NodeOp.add, [0, 1])]) 2 ∧
    (bfsPhase (buildGraph [(NodeOp.input, []), (NodeOp.input, []), (NodeOp.add, [0, 1])])).map
      (fun r => r.2.2.count 2) = some 2 :=
  ⟨Reach.step 0 2 (Reach.root 0 (by decide) (by decide)) (by decide), by decide⟩

theorem order_of_pairwise_rev (g : Graph) (hg : GW g) (M : List Nat) (mnd : M.Nodup)
    (mpair : M.Pairwise (fun x y => x ∉ inbound g y)) :
    ∀ a b, a ∈ inbound g b → a ∈ M → b ∈ M → M.indexOf b < M.indexOf a := by
  intro a b hab ha hb
  have hia : M.indexOf a < M.length := List.indexOf_lt_length.mpr ha
  have hib : M.indexOf b < M.length := List.indexOf_lt_length.mpr hb
  have hga : M[M.indexOf a] = a := List.getElem_indexOf hia
  have hgb : M[M.indexOf b] = b := List.getElem_indexOf hib
  by_contra hc
  rcases Nat.lt_or_ge (M.indexOf a) (M.indexOf b) with hlt | hge
  · have := (List.pairwise_iff_getElem.mp mpair) _ _ hia hib hlt
    rw [hga, hgb] at this
    exact this hab
  · have heq : M.indexOf a = M.indexOf b := by omega
    have hab2 : a = b := (List.indexOf_inj ha hb).mp heq
    have hlt2 : a < b := hg.edges_lt b a hab
    omega

/-- One method invocation event of `forward_and_backward`. -/
inductive Ev where
  | fwd (n : Nat)
  | bwd (n : Nat)
deriving DecidableEq, Repr

/-- `forward_and_backward(graph)` (src/miniflow.py lines 207-221) as the
sequence of method invocations it performs: `forward()` on every node in
the given order, then `backward()` on every node in the reverse
(`graph[::-1]`) of that order. -/
def forwardAndBackward (L : List Nat) : List Ev :=
  L.map Ev.fwd ++ (L.reverse.map Ev.bwd)

/-- C2.  On any order produced by `topological_sort` (amended setting),
`forward_and_backward` first invokes `forward()` on every node in that
order and then `backward()` on every node in the strict reverse of the same
order; consequently every consumer `c` of a node `n` occurs in the order,
and `backward()` on `c` runs strictly before `backward()` on `n` (its
position in the reverse sweep is strictly smaller). -/
theorem forward_and_backward_order {V : Type} (specs : List (NodeOp × List Nat))
    (pick : List Nat → Nat) (feed : Nat → V)
    (hwf : WFspecs specs) (hnd : NodupInb specs)
    (hpick : ∀ l : List Nat, l ≠ [] → pick l ∈ l)
    (L : List Nat) (vals : List (Option V))
    (hrun : topologicalSortP pick (buildGraph specs) feed = some (L, vals)) :
    forwardAndBackward L = L.map Ev.fwd ++ L.reverse.map Ev.bwd ∧
    (∀ n c, n ∈ L → n ∈ inbound (buildGraph specs) c →
      c ∈ L ∧ L.reverse.indexOf c < L.reverse.indexOf n) := by
  have hg : GW (buildGraph specs) := GW_buildGraph specs hwf
  obtain ⟨L2, vals2, gin, gout, hrun2, hinv⟩ :=
    topologicalSortP_ok specs hwf hnd pick hpick feed
  have heq : (L2, vals2) = (L, vals) := Option.some.inj (hrun2.symm.trans hrun)
  have hL : L2 = L := congrArg Prod.fst heq
  have hvals : vals2 = vals := congrArg Prod.snd heq
  rw [hL, hvals] at hinv
  refine ⟨rfl, ?_⟩
  intro n c hn hc
  have hreachn : Reach (buildGraph specs) n := hinv.lreach n hn
  have hreachc : Reach (buildGraph specs) c := Reach.step n c hreachn hc
  have hcL : c ∈ L := KahnInv_final_complete _ hg feed L gin gout vals hinv c hreachc
  refine ⟨hcL, ?_⟩
  have hrevnd : L.reverse.Nodup := List.nodup_reverse.mpr hinv.lnd
  have hrevpair : L.reverse.Pairwise (fun x y => x ∉ inbound (buildGraph specs) y) := by
    rw [List.pairwise_reverse]
    exact hinv.lpair
  exact order_of_pairwise_rev _ hg L.reverse hrevnd hrevpair n c hc
    (List.mem_reverse.mpr hn) (List.mem_reverse.mpr hcL)

theorem forward_and_backward_order_witness :
    WFspecs [(NodeOp.input, []), (NodeOp.sigmoid, [0]), (NodeOp.sigmoid, [1])] ∧
    NodupInb [(NodeOp.input, []), (NodeOp.sigmoid, [0]), (NodeOp.sigmoid, [1])] ∧
    topologicalSortP pickHead
      (buildGraph [(NodeOp.input, []), (NodeOp.sigmoid, [0]), (NodeOp.sigmoid, [1])])
      (fun _ => (0 : Nat)) = some ([0, 1, 2], [some 0, none, none]) ∧
    (forwardAndBackward [0, 1, 2] =
      [0, 1, 2].map Ev.fwd ++ [0, 1, 2].reverse.map Ev.bwd ∧
    (∀ n c, n ∈ [0, 1, 2] →
      n ∈ inbound
        (buildGraph [(NodeOp.input, []), (NodeOp.sigmoid, [0]), (NodeOp.sigmoid, [1])]) c →
      c ∈ [0, 1, 2] ∧
        List.indexOf c [0, 1, 2].reverse < List.indexOf n [0, 1, 2].reverse)) :=
  ⟨by decide, by decide, by decide,
    forward_and_backward_order [(NodeOp.input, []), (NodeOp.sigmoid, [0]), (NodeOp.sigmoid, [1])]
      pickHead (fun _ => (0 : Nat)) (by decide) (by decide) pickHead_mem
      [0, 1, 2] [some 0, none, none] (by decide)⟩

/-- C9.  In every graph built from the node constructors, node `j` appears
in the `outbound_nodes` of node `i` exactly as often as `i` appears in the
`inbound_nodes` of `j` (in particular: membership in one is equivalent to
membership in the other).  The relation is established purely by
`Node.__init__` — `forward`, `backward` and `topological_sort` in this
embedding read the graph but never produce a modified graph, so nothing
can change it afterwards. -/
theorem node_construction_duality (specs : List (NodeOp × List Nat)) (hwf : WFspecs specs) :
    ∀ i j, (j ∈ outbound (buildGraph specs) i ↔ i ∈ inbound (buildGraph specs) j) ∧
      List.count j (outbound (buildGraph specs) i) =
        List.count i (inbound (buildGraph specs) j) := by
  have hg : GW (buildGraph specs) := GW_buildGraph specs hwf
  intro i j
  exact ⟨mem_outbound_iff _ hg i j, hg.dual i j⟩

theorem node_construction_duality_witness :
    WFspecs [(NodeOp.input, []), (NodeOp.input, []), (NodeOp.linear, [0, 1, 0])] ∧
    (∀ i j,
      (j ∈ outbound (buildGraph
          [(NodeOp.input, []), (NodeOp.input, []), (NodeOp.linear, [0, 1, 0])]) i ↔
        i ∈ inbound (buildGraph
          [(NodeOp.input, []), (NodeOp.input, []), (NodeOp.linear, [0, 1, 0])]) j) ∧
      List.count j (outbound (buildGraph
          [(NodeOp.input, []), (NodeOp.input, []), (NodeOp.linear, [0, 1, 0])]) i) =
        List.count i (inbound (buildGraph
          [(NodeOp.input, []), (NodeOp.input, []), (NodeOp.linear, [0, 1, 0])]) j)) :=
  ⟨by decide,
    node_construction_duality
      [(NodeOp.input, []), (NodeOp.input, []), (NodeOp.linear, [0, 1, 0])] (by decide)⟩

/-!
Per-node numeric semantics.  numpy arrays become functions `Fin m → Fin n → α`
over an abstract commutative ring / field `α` (the numeric claims hold for
exact arithmetic; Python floats are an approximation of this).  `np.exp` is
external library code and is modelled by an abstract function `ex`.
-/

def matMulF {α : Type} [CommRing α] {m n p : Nat}
    (A : Fin m → Fin n → α) (B : Fin n → Fin p → α) : Fin m → Fin p → α :=
  fun i j => ∑ k, A i k * B k j

def transposeF {α : Type} {m n : Nat} (A : Fin m → Fin n → α) : Fin n → Fin m → α :=
  fun i j => A j i

/-- `np.sum(grad_cost, axis=0, keepdims=False)`: column-wise sum, reducing
the row dimension to a vector. -/
def colSumF {α : Type} [CommRing α] {m p : Nat} (A : Fin m → Fin p → α) : Fin p → α :=
  fun j => ∑ i, A i j

/-- `Linear.forward`: `self.value = X.dot(W) + b`, `b` broadcast over rows. -/
def linearForward {α : Type} [CommRing α] {m n p : Nat}
    (X : Fin m → Fin n → α) (W : Fin n → Fin p → α) (b : Fin p → α) :
    Fin m → Fin p → α :=
  fun i j => matMulF X W i j + b j

/-- The body of the consumer loop of `Linear.backward`: accumulate
`np.dot(grad_cost, W.T)` into the X-gradient, `np.dot(X.T, grad_cost)` into
the W-gradient, and the column sum of `grad_cost` into the b-gradient. -/
def linStep {α : Type} [CommRing α] {m n p : Nat}
    (X : Fin m → Fin n → α) (W : Fin n → Fin p → α)
    (acc : (Fin m → Fin n → α) × (Fin n → Fin p → α) × (Fin p → α))
    (g : Fin m → Fin p → α) :
    (Fin m → Fin n → α) × (Fin n → Fin p → α) × (Fin p → α) :=
  (fun i j => acc.1 i j + matMulF g (transposeF W) i j,
   fun i j => acc.2.1 i j + matMulF (transposeF X) g i j,
   fun j => acc.2.2 j + colSumF g j)

/-- `Linear.backward`: gradients initialized to zeros shaped like each
input, then accumulated over the gradients `gs` contributed by the outbound
consumers (one entry per inbound node: X, W, b, assumed distinct objects,
as in every use in the source). -/
def linearBackward {α : Type} [CommRing α] {m n p : Nat}
    (X : Fin m → Fin n → α) (W : Fin n → Fin p → α)
    (gs : List (Fin m → Fin p → α)) :
    (Fin m → Fin n → α) × (Fin n → Fin p → α) × (Fin p → α) :=
  gs.foldl (linStep X W) (fun _ _ => 0, fun _ _ => 0, fun _ => 0)

theorem linearBackward_eval {α : Type} [CommRing α] {m n p : Nat}
    (X : Fin m → Fin n → α) (W : Fin n → Fin p → α) :
    ∀ (gs : List (Fin m → Fin p → α))
      (acc : (Fin m → Fin n → α) × (Fin n → Fin p → α) × (Fin p → α)),
      (∀ i j, (gs.foldl (linStep X W) acc).1 i j =
        acc.1 i j + (gs.map (fun g => matMulF g (transposeF W) i j)).sum) ∧
      (∀ i j, (gs.foldl (linStep X W) acc).2.1 i j =
        acc.2.1 i j + (gs.map (fun g => matMulF (transposeF X) g i j)).sum) ∧
      (∀ j, (gs.foldl (linStep X W) acc).2.2 j =
        acc.2.2 j + (gs.map (fun g => colSumF g j)).sum) := by
  intro gs
  induction gs with
  | nil =>
    intro acc
    refine ⟨?_, ?_, ?_⟩ <;> intros <;> simp
  | cons g gs ih =>
    intro acc
    obtain ⟨ih1, ih2, ih3⟩ := ih (linStep X W acc g)
    refine ⟨?_, ?_, ?_⟩
    · intro i j
      rw [List.foldl_cons, ih1 i j, List.map_cons, List.sum_cons]
      show acc.1 i j + matMulF g (transposeF W) i j + _ = _
      ring
    · intro i j
      rw [List.foldl_cons, ih2 i j, List.map_cons, List.sum_cons]
      show acc.2.1 i j + matMulF (transposeF X) g i j + _ = _
      ring
    · intro j
      rw [List.foldl_cons, ih3 j, List.map_cons, List.sum_cons]
      show acc.2.2 j + colSumF g j + _ = _
      ring

/-- C3.  `Linear.forward` computes exactly `X·W + b` with `b` broadcast over
rows; `Linear.backward` starts from zero gradients (the empty-consumer case
returns exactly the zeros) and accumulates, summed over all outbound
consumers' gradients `grad_cost`: `grad_cost · Wᵀ` w.r.t. X, `Xᵀ · grad_cost`
w.r.t. W, and the column-wise sum of `grad_cost` w.r.t. b. -/
theorem linear_forward_backward {α : Type} [CommRing α] {m n p : Nat}
    (X : Fin m → Fin n → α) (W : Fin n → Fin p → α) (b : Fin p → α)
    (gs : List (Fin m → Fin p → α)) :
    (∀ i j, linearForward X W b i j = (∑ k, X i k * W k j) + b j) ∧
    (linearBackward X W ([] : List (Fin m → Fin p → α)) =
      (fun _ _ => 0, fun _ _ => 0, fun _ => 0)) ∧
    (∀ i j, (linearBackward X W gs).1 i j =
      (gs.map (fun g => matMulF g (transposeF W) i j)).sum) ∧
    (∀ i j, (linearBackward X W gs).2.1 i j =
      (gs.map (fun g => matMulF (transposeF X) g i j)).sum) ∧
    (∀ j, (linearBackward X W gs).2.2 j =
      (gs.map (fun g => colSumF g j)).sum) := by
  obtain ⟨h1, h2, h3⟩ :=
    linearBackward_eval X W gs (fun _ _ => 0, fun _ _ => 0, fun _ => 0)
  refine ⟨?_, rfl, ?_, ?_, ?_⟩
  · intro i j
    rfl
  · intro i j
    rw [show linearBackward X W gs =
      gs.foldl (linStep X W) (fun _ _ => 0, fun _ _ => 0, fun _ => 0) from rfl, h1 i j]
    show (0 : α) + _ = _
    ring
  · intro i j
    rw [show linearBackward X W gs =
      gs.foldl (linStep X W) (fun _ _ => 0, fun _ _ => 0, fun _ => 0) from rfl, h2 i j]
    show (0 : α) + _ = _
    ring
  · intro j
    rw [show linearBackward X W gs =
      gs.foldl (linStep X W) (fun _ _ => 0, fun _ _ => 0, fun _ => 0) from rfl, h3 j]
    show (0 : α) + _ = _
    ring

/-- `Sigmoid._sigmoid`: `1. / (1. + np.exp(-x))`, with `np.exp` abstracted
as `ex`. -/
def sigScalar {α : Type} [Field α] (ex : α → α) (x : α) : α :=
  1 / (1 + ex (-x))

/-- `Sigmoid.forward`: elementwise logistic function of the inbound value. -/
def sigmoidForward {α : Type} [Field α] {m n : Nat} (ex : α → α)
    (x : Fin m → Fin n → α) : Fin m → Fin n → α :=
  fun i j => sigScalar ex (x i j)

/-- The body of the consumer loop of `Sigmoid.backward`: accumulate
`sigmoid * (1 - sigmoid) * grad_cost` elementwise. -/
def sigStep {α : Type} [Field α] {m n : Nat} (s : Fin m → Fin n → α)
    (acc : Fin m → Fin n → α) (g : Fin m → Fin n → α) : Fin m → Fin n → α :=
  fun i j => acc i j + s i j * (1 - s i j) * g i j

/-- `Sigmoid.backward`: gradient initialized to zeros, then accumulated over
the outbound consumers' gradients, where `s` is this node's own forward
output (`self.value`). -/
def sigmoidBackward {α : Type} [Field α] {m n : Nat} (s : Fin m → Fin n → α)
    (gs : List (Fin m → Fin n → α)) : Fin m → Fin n → α :=
  gs.foldl (sigStep s) (fun _ _ => 0)

theorem sigmoidBackward_eval {α : Type} [Field α] {m n : Nat} (s : Fin m → Fin n → α) :
    ∀ (gs : List (Fin m → Fin n → α)) (acc : Fin m → Fin n → α) (i : Fin m) (j : Fin n),
      gs.foldl (sigStep s) acc i j =
        acc i j + (gs.map (fun g => g i j * s i j * (1 - s i j))).sum := by
  intro gs
  induction gs with
  | nil => intro acc i j; simp
  | cons g gs ih =>
    intro acc i j
    rw [List.foldl_cons, ih (sigStep s acc g) i j, List.map_cons, List.sum_cons]
    show acc i j + s i j * (1 - s i j) * g i j + _ = _
    ring

/-- C4.  `Sigmoid.forward` computes the elementwise logistic function
`1 / (1 + exp(-x))` of its single inbound value, and `Sigmoid.backward`
initializes the inbound gradient to zero (the empty-consumer case returns
exactly zero) and accumulates `grad_cost * s * (1 - s)` elementwise over
all outbound consumers' gradients, where `s` is the node's own forward
output. -/
theorem sigmoid_forward_backward {α : Type} [Field α] {m n : Nat} (ex : α → α)
    (x : Fin m → Fin n → α) (gs : List (Fin m → Fin n → α)) :
    (∀ i j, sigmoidForward ex x i j = 1 / (1 + ex (-(x i j)))) ∧
    (sigmoidBackward (sigmoidForward ex x) ([] : List (Fin m → Fin n → α)) =
      fun _ _ => 0) ∧
    (∀ i j, sigmoidBackward (sigmoidForward ex x) gs i j =
      (gs.map (fun g =>
        g i j * sigmoidForward ex x i j * (1 - sigmoidForward ex x i j))).sum) := by
  refine ⟨fun i j => rfl, rfl, ?_⟩
  intro i j
  rw [show sigmoidBackward (sigmoidForward ex x) gs =
    gs.foldl (sigStep (sigmoidForward ex x)) (fun _ _ => 0) from rfl]
  rw [sigmoidBackward_eval (sigmoidForward ex x) gs (fun _ _ => 0) i j]
  show (0 : α) + _ = _
  ring

/-- `Input.backward`: `self.gradients = {self: 0}` and then, for every
outbound consumer, `self.gradients[self] += grad_cost * 1`.  The gradients
dictionary (keyed by object identity) is an association list keyed by the
node's own index; `gs` lists the consumers' gradient entries for this node. -/
def inputBackward {M : Type} [NonAssocSemiring M] (self : Nat) (gs : List M) :
    List (Nat × M) :=
  [(self, gs.foldl (fun acc v => acc + v * 1) 0)]

theorem inputBackward_foldl {M : Type} [NonAssocSemiring M] (gs : List M) :
    ∀ c : M, gs.foldl (fun acc v => acc + v * 1) c = c + gs.sum := by
  induction gs with
  | nil => intro c; simp
  | cons g gs ih =>
    intro c
    rw [List.foldl_cons, ih (c + g * 1), List.sum_cons, mul_one, add_assoc]

/-- C6.  After `Input.backward`, the leaf's gradients map holds exactly one
entry, keyed by the node itself, whose value is the sum of the gradient
contributions of all its outbound consumers; in particular two consumers'
contributions are summed, not overwritten. -/
theorem input_backward_sums {M : Type} [NonAssocSemiring M] (self : Nat) (gs : List M) :
    inputBackward self gs = [(self, gs.sum)] ∧
    (inputBackward self gs).length = 1 ∧
    (∀ g1 g2 : M, inputBackward self [g1, g2] = [(self, g1 + g2)]) := by
  refine ⟨?_, rfl, ?_⟩
  · unfold inputBackward
    rw [inputBackward_foldl gs 0, zero_add]
  · intro g1 g2
    unfold inputBackward
    rw [inputBackward_foldl [g1, g2] 0, zero_add]
    simp

/-- Result of calling a Python method: either an exception or a normal
return value. -/
inductive PyResult (β : Type) where
  | raises (msg : String)
  | returns (v : β)
deriving DecidableEq, Repr

/-- `Node.forward` on the abstract base class: `raise NotImplementedError`. -/
def nodeBaseForward : PyResult Unit := PyResult.raises "NotImplementedError"

/-- `Node.backward` on the abstract base class: `raise NotImplementedError`. -/
def nodeBaseBackward : PyResult Unit := PyResult.raises "NotImplementedError"

/-- `Add.backward`: the body is `pass` — it returns normally and leaves the
gradients state (passed and returned here explicitly) untouched. -/
def addBackward {γ : Type} (gradients : γ) : PyResult γ := PyResult.returns gradients

/-- `Mul.backward`: the body is `pass` — it returns normally and leaves the
gradients state untouched. -/
def mulBackward {γ : Type} (gradients : γ) : PyResult γ := PyResult.returns gradients

/-- C7 counterexample: `Add.backward` and `Mul.backward` do NOT fail with a
"not implemented" error — both are overridden with `pass`, returning
normally and leaving the gradients unchanged, so the claim that invoking
them fails is false. -/
theorem add_mul_backward_counterexample :
    addBackward (0 : Nat) = PyResult.returns 0 ∧
    mulBackward (0 : Nat) = PyResult.returns 0 ∧
    addBackward (0 : Nat) ≠ PyResult.raises "NotImplementedError" ∧
    mulBackward (0 : Nat) ≠ PyResult.raises "NotImplementedError" := by
  refine ⟨rfl, rfl, ?_, ?_⟩ <;> intro h <;> cases h

/-- C7 (amended).  `forward()`/`backward()` on the abstract base `Node`
fail with `NotImplementedError`; `Add.backward` and `Mul.backward`, by
contrast, are overridden as `pass` — they return normally, with no error
and no gradient distribution (the gradients state is left untouched). -/
theorem base_raises_add_mul_pass :
    nodeBaseForward = PyResult.raises "NotImplementedError" ∧
    nodeBaseBackward = PyResult.raises "NotImplementedError" ∧
    (∀ (γ : Type) (gradients : γ),
      addBackward gradients = PyResult.returns gradients ∧
      mulBackward gradients = PyResult.returns gradients) :=
  ⟨rfl, rfl, fun _ _ => ⟨rfl, rfl⟩⟩

/-- `value.reshape(-1, 1)`: flatten in row-major order into a single-column
matrix (arrays are nested lists, first axis outermost). -/
def reshapeCol {α : Type} (x : List (List α)) : List (List α) :=
  x.join.map (fun t => [t])

/-- `y - a` on the two reshaped columns. -/
def mseDiff {α : Type} [Field α] (y a : List (List α)) : List (List α) :=
  List.zipWith (fun r s => List.zipWith (fun u v => u - v) r s)
    (reshapeCol y) (reshapeCol a)

/-- State written by `MSE.forward`: `self.m`, `self.diff`, `self.value`. -/
structure MSEState (α : Type) where
  m : Nat
  diff : List (List α)
  value : α
deriving DecidableEq, Repr

/-- `MSE.forward`: reshape both inbound values to single columns, record
`m = shape[0]` of the ORIGINAL (un-reshaped) first inbound value, record
`diff`, and set `value = np.mean(diff ** 2)` — the mean over all entries of
`diff`. -/
def mseForward {α : Type} [Field α] (y a : List (List α)) : MSEState α :=
  { m := y.length
    diff := mseDiff y a
    value := ((mseDiff y a).join.map (fun d => d * d)).sum /
      (((mseDiff y a).join.length : Nat) : α) }

/-- `MSE.backward`: gradient w.r.t. `y` is `(2 / self.m) * self.diff`,
gradient w.r.t. `a` is `(-2 / self.m) * self.diff` (direct assignment — the
loss is terminal). -/
def mseBackward {α : Type} [Field α] (s : MSEState α) :
    List (List α) × List (List α) :=
  (s.diff.map (fun r => r.map (fun d => (2 / (s.m : α)) * d)),
   s.diff.map (fun r => r.map (fun d => (-2 / (s.m : α)) * d)))

/-- C5.  For `y = [[1],[2]]`, `a = [[1.5],[1.5]]`: forward records `m = 2`,
`diff = [[-0.5],[0.5]]`, `value = 0.25`, and backward assigns gradient
w.r.t. `y` `= [[-0.5],[0.5]]` and gradient w.r.t. `a` `= [[0.5],[-0.5]]`
(exact rational arithmetic). -/
theorem mse_concrete :
    (mseForward ([[1], [2]] : List (List ℚ)) [[3/2], [3/2]]).m = 2 ∧
    (mseForward ([[1], [2]] : List (List ℚ)) [[3/2], [3/2]]).diff = [[-(1/2)], [1/2]] ∧
    (mseForward ([[1], [2]] : List (List ℚ)) [[3/2], [3/2]]).value = 1/4 ∧
    (mseBackward (mseForward ([[1], [2]] : List (List ℚ)) [[3/2], [3/2]])).1 =
      [[-(1/2)], [1/2]] ∧
    (mseBackward (mseForward ([[1], [2]] : List (List ℚ)) [[3/2], [3/2]])).2 =
      [[1/2], [-(1/2)]] := by
  refine ⟨rfl, ?_, ?_, ?_, ?_⟩
  · unfold mseForward mseDiff reshapeCol
    norm_num [List.zipWith]
  · unfold mseForward mseDiff reshapeCol
    norm_num [List.zipWith]
  · unfold mseBackward mseForward mseDiff reshapeCol
    norm_num [List.zipWith]
  · unfold mseBackward mseForward mseDiff reshapeCol
    norm_num [List.zipWith]

/-- The MSE forward value as a function of the first entry of a
(1, 2)-shaped `y`, used to compute the exact partial derivative. -/
def mseValueAtQ (t : ℚ) : ℚ := (mseForward [[t, 2]] [[3/2, 3/2]]).value

/-- C10.  `MSE.backward` divides by `m = shape[0]` of the original,
un-reshaped `y` (not by the row count of the reshaped column): for `y` of
shape `(1, 2)` the forward value averages over the 2 entries while the
backward gradient is scaled by `2/1`, so the assigned gradient entry `-1`
differs from the true partial derivative `-1/2` of the computed value (the
value is quadratic, so the symmetric difference quotient is exact for every
step `h ≠ 0`). -/
theorem mse_divisor_mismatch (h : ℚ) (hh : h ≠ 0) :
    (mseForward ([[1, 2]] : List (List ℚ)) [[3/2, 3/2]]).m = 1 ∧
    (mseForward ([[1, 2]] : List (List ℚ)) [[3/2, 3/2]]).diff.join.length = 2 ∧
    (mseForward ([[1, 2]] : List (List ℚ)) [[3/2, 3/2]]).value = 1/4 ∧
    (mseBackward (mseForward ([[1, 2]] : List (List ℚ)) [[3/2, 3/2]])).1 = [[-1], [1]] ∧
    (mseValueAtQ (1 + h) - mseValueAtQ (1 - h)) / (2 * h) = -(1/2) ∧
    ((-1 : ℚ) ≠ -(1/2)) := by
  refine ⟨rfl, ?_, ?_, ?_, ?_, by norm_num⟩
  · unfold mseForward mseDiff reshapeCol
    norm_num [List.zipWith]
  · unfold mseForward mseDiff reshapeCol
    norm_num [List.zipWith]
  · unfold mseBackward mseForward mseDiff reshapeCol
    norm_num [List.zipWith]
  · have hv : ∀ t : ℚ, mseValueAtQ t = ((t - 3/2) * (t - 3/2) + 1/4) / 2 := by
      intro t
      unfold mseValueAtQ mseForward mseDiff reshapeCol
      simp only [List.join, List.map, List.zipWith, List.length_cons, List.length_nil,
        List.sum_cons, List.sum_nil, List.append_nil, List.nil_append, List.cons_append]
      norm_num
    rw [hv, hv]
    field_simp
    ring

theorem mse_divisor_mismatch_witness :
    (1 : ℚ) ≠ 0 ∧
    ((mseForward ([[1, 2]] : List (List ℚ)) [[3/2, 3/2]]).m = 1 ∧
    (mseForward ([[1, 2]] : List (List ℚ)) [[3/2, 3/2]]).diff.join.length = 2 ∧
    (mseForward ([[1, 2]] : List (List ℚ)) [[3/2, 3/2]]).value = 1/4 ∧
    (mseBackward (mseForward ([[1, 2]] : List (List ℚ)) [[3/2, 3/2]])).1 = [[-1], [1]] ∧
    (mseValueAtQ (1 + 1) - mseValueAtQ (1 - 1)) / (2 * 1) = -(1/2) ∧
    ((-1 : ℚ) ≠ -(1/2))) :=
  ⟨by norm_num, mse_divisor_mismatch 1 (by norm_num)⟩

end Miniflow
